import Mathlib

/-!
Verification of the ANAR pipeline orchestration engine
(`src/anar/pipeline/stages.py` and `src/anar/pipeline/enhanced_pipeline.py`)
against its natural-language specification.

The Python code is shallowly embedded: Python dicts become insertion-ordered
association lists with Python's update semantics, raised exceptions become an
`Except PyErr` result, `async` functions become plain functions (each claim
concerns the value/erorr outcome, which is deterministic), and the recursive
depth-first traversal of `StageManager.get_execution_order` is given explicit
fuel (its sufficiency is proved, so the fuel-exhaustion branch is unreachable).
-/

namespace Anar

/-- Model of the Python exceptions that the pipeline code can raise.
`valueError` is `ValueError(msg)`; `pipelineStageError` is the
`PipelineStageError` of `stages.py`, which is raised inside an `except` block
and therefore carries the original exception (Python's implicit exception
chaining via `__context__`) in addition to its message; `exc` stands for any
other exception object. -/
inductive PyErr where
| valueError (msg : String)
| pipelineStageError (msg : String) (context : PyErr)
| exc (msg : String)
deriving DecidableEq

/-- Python `str(e)` on the modelled exceptions: each one renders its message. -/
def PyErr.str : PyErr → String
| .valueError msg => msg
| .pipelineStageError msg _ => msg
| .exc msg => msg

/-! ### Python `dict` with string keys, as an insertion-ordered association list

`d[k] = v` keeps the position of an existing key and appends a new key at the
end; `d.get(k, default)`, `k in d` and key iteration follow Python semantics. -/

/-- `d[k] = v` on a Python dict: replace in place if the key exists, else append. -/
def dictSet {α : Type _} : List (String × α) → String → α → List (String × α)
| [], k, v => [(k, v)]
| (k', v') :: rest, k, v =>
  if k' = k then (k, v) :: rest else (k', v') :: dictSet rest k v

/-- `d.get(k)` on a Python dict (`None` when absent). -/
def dictGet? {α : Type _} (d : List (String × α)) (k : String) : Option α :=
  (d.find? (fun p => p.1 = k)).map Prod.snd

/-- Iteration order of a Python dict: its keys in insertion order. -/
def dictKeys {α : Type _} (d : List (String × α)) : List String :=
  d.map Prod.fst

/-! ### `PipelineStage` and `StageExecutor` (`stages.py`) -/

/-- The `PipelineStage` dataclass: a name, a processing coroutine, a validator
predicate and an optional recovery coroutine.  The dataclass also carries an
opaque `config` map that no code in `stages.py` reads; it is modelled as an
opaque option.  `α` is the payload type threaded through a stage and `κ` the
type of the execution context. -/
structure PipelineStage (α κ : Type _) where
  name : String
  processor : α → Except PyErr α
  validator : α → Bool
  recovery : Option (α → Option κ → Except PyErr α) := none
  config : Option Unit := none

/-- Ghost trace of the calls `StageExecutor.execute` makes into the stage's
functions, used to state how often the processor, validator and recovery
function are invoked. -/
inductive StageEvent (α κ : Type _) where
| procCall (data : α)
| validateCall (result : α)
| recoverCall (result : α) (context : Option κ)

/-- True exactly on `recoverCall` events. -/
def StageEvent.isRecover {α κ : Type _} : StageEvent α κ → Bool
| .recoverCall _ _ => true
| _ => false

/-- True exactly on `validateCall` events. -/
def StageEvent.isValidate {α κ : Type _} : StageEvent α κ → Bool
| .validateCall _ => true
| _ => false

/-- The wrapper of the `except Exception as e:` handler in
`StageExecutor.execute`:
`raise PipelineStageError(f"Stage {name} failed: {str(e)}")`.
The freshly raised exception implicitly chains the caught one. -/
def wrapStageError (name : String) (e : PyErr) : PyErr :=
  .pipelineStageError ("Stage " ++ name ++ " failed: " ++ e.str) e

/-- `StageExecutor.execute` from `stages.py`, lines 31-67: run the processor;
if the validator rejects the result, run the recovery function when one is
configured, otherwise raise `ValueError(f"Stage {name} validation failed")`;
every exception escaping the `try` block (from the processor, from the
recovery function, or the validation `ValueError` itself) is caught and
re-raised as a `PipelineStageError`.  The second component is the ghost call
trace. -/
def StageExecutor.execute {α κ : Type _} (stage : PipelineStage α κ) (data : α)
    (context : Option κ) : Except PyErr α × List (StageEvent α κ) :=
  match stage.processor data with
  | .error e => (.error (wrapStageError stage.name e), [.procCall data])
  | .ok result =>
    if stage.validator result then
      (.ok result, [.procCall data, .validateCall result])
    else
      match stage.recovery with
      | some recover =>
        match recover result context with
        | .ok r =>
          (.ok r, [.procCall data, .validateCall result, .recoverCall result context])
        | .error e =>
          (.error (wrapStageError stage.name e),
            [.procCall data, .validateCall result, .recoverCall result context])
      | none =>
        (.error (wrapStageError stage.name
            (.valueError ("Stage " ++ stage.name ++ " validation failed"))),
          [.procCall data, .validateCall result])

/-! ### `StageManager` (`stages.py`, lines 69-133) -/

/-- The `StageManager` state: the `stages` registry and the `dependencies`
map, both Python dicts keyed by stage name. -/
structure StageManager (α κ : Type _) where
  stages : List (String × PipelineStage α κ) := []
  dependencies : List (String × List String) := []

/-- A fresh `StageManager()`. -/
def StageManager.init {α κ : Type _} : StageManager α κ := {}

/-- `StageManager.register_stage` (lines 83-91):
`self.stages[stage.name] = stage`, and `self.dependencies[stage.name] =
dependencies` only when `dependencies` is truthy (neither `None` nor `[]`). -/
def register_stage {α κ : Type _} (m : StageManager α κ) (stage : PipelineStage α κ)
    (dependencies : Option (List String)) : StageManager α κ :=
  { stages := dictSet m.stages stage.name stage
    dependencies :=
      match dependencies with
      | none => m.dependencies
      | some [] => m.dependencies
      | some ds => dictSet m.dependencies stage.name ds }

/-- `self.dependencies.get(stage_name, [])`. -/
def depsOf {α κ : Type _} (m : StageManager α κ) (s : String) : List String :=
  (dictGet? m.dependencies s).getD []

/-- State of the traversal in `get_execution_order`: the `visited` set
(newest first, as it is only ever grown) and the `order` list (append order). -/
abbrev VisitState := List String × List String

/-- The `for dep in self.dependencies.get(stage_name, [])` loop body of
`visit` (lines 103-108): check `dep not in self.stages` (raising
`ValueError(f"Unknown dependency: {dep}")`), then recurse via `visitFn`.
`visitFn` is the recursive `visit` at the remaining fuel; `none` signals fuel
exhaustion (shown unreachable below). -/
def goDeps (keys : List String) (visitFn : String → VisitState → Option (Except PyErr VisitState)) :
    List String → VisitState → Option (Except PyErr VisitState)
| [], st => some (.ok st)
| d :: rest, st =>
  if d ∈ keys then
    match visitFn d st with
    | none => none
    | some (.error e) => some (.error e)
    | some (.ok st2) => goDeps keys visitFn rest st2
  else
    some (.error (.valueError ("Unknown dependency: " ++ d)))

/-- The recursive `visit` closure of `get_execution_order` (lines 98-110):
return if already visited, else mark visited, traverse the declared
dependencies, then append the stage to the order.  The fuel argument makes the
recursion structural; `none` means the fuel ran out. -/
def visit (keys : List String) (deps : String → List String) :
    Nat → String → VisitState → Option (Except PyErr VisitState)
| 0, _, _ => none
| fuel + 1, name, st =>
  if name ∈ st.1 then some (.ok st)
  else
    match goDeps keys (visit keys deps fuel) (deps name) (name :: st.1, st.2) with
    | none => none
    | some (.error e) => some (.error e)
    | some (.ok st2) => some (.ok (st2.1, st2.2 ++ [name]))

/-- The `for stage_name in self.stages: visit(stage_name)` loop
(lines 112-113). -/
def topLoop (keys : List String) (deps : String → List String) (fuel : Nat) :
    List String → VisitState → Option (Except PyErr VisitState)
| [], st => some (.ok st)
| n :: ns, st =>
  match visit keys deps fuel n st with
  | none => none
  | some (.error e) => some (.error e)
  | some (.ok st2) => topLoop keys deps fuel ns st2

/-- `StageManager.get_execution_order` (lines 93-115).  The fuel
`keys.length + 1` is enough for every `visit` call (proved below), so the
`exc` branch is unreachable. -/
def get_execution_order {α κ : Type _} (m : StageManager α κ) : Except PyErr (List String) :=
  match topLoop (dictKeys m.stages) (depsOf m) ((dictKeys m.stages).length + 1)
      (dictKeys m.stages) ([], []) with
  | none => .error (.exc ("unreachable: fuel exhausted"))
  | some (.error e) => .error e
  | some (.ok st) => .ok st.2

/-- The `for stage_name in self.get_execution_order()` loop of
`execute_stages` (lines 125-131): look the stage up (a missing key would be a
Python `KeyError`) and thread the data through its `StageExecutor`, collecting
the ghost call traces.  A raised error aborts the loop. -/
def runStages {α κ : Type _} (m : StageManager α κ) (context : Option κ) :
    List String → α → List (StageEvent α κ) → Except PyErr α × List (StageEvent α κ)
| [], data, tr => (.ok data, tr)
| n :: ns, data, tr =>
  match dictGet? m.stages n with
  | none => (.error (.exc ("KeyError: " ++ n)), tr)
  | some stage =>
    match StageExecutor.execute stage data context with
    | (.error e, tr') => (.error e, tr ++ tr')
    | (.ok r, tr') => runStages m context ns r (tr ++ tr')

/-- `StageManager.execute_stages` (lines 117-133): compute the order, then run
every stage in order.  An error from `get_execution_order` propagates before
any stage function is invoked (empty trace). -/
def execute_stages {α κ : Type _} (m : StageManager α κ) (data : α) (context : Option κ) :
    Except PyErr α × List (StageEvent α κ) :=
  match get_execution_order m with
  | .error e => (.error e, [])
  | .ok order => runStages m context order data []

/-! ### Batch processing and checkpoints (`enhanced_pipeline.py`) -/

/-- Python `range(start, stop, step)` for a positive step, with fuel making
the recursion structural: `stop - start` steps always suffice because the
index advances by at least one per emitted element. -/
def pyRangeGo (stop step : Nat) : Nat → Nat → List Nat
| 0, _ => []
| fuel + 1, start =>
  if start < stop then start :: pyRangeGo stop step fuel (start + step) else []

/-- Python `range(start, stop, step)`.  A zero step raises `ValueError` in
Python; that case is modelled as the empty range and never reached by the
claims, which all require a positive batch size. -/
def pyRange (start stop step : Nat) : List Nat :=
  if step = 0 then [] else pyRangeGo stop step (stop - start) start

/-- The batch partition of `process_batch` (lines 79-82):
`[texts[i:i + batch_size] for i in range(0, len(texts), batch_size)]`,
with the Python slice `texts[i:i+B]` being `(texts.drop i).take B`. -/
def batchesOf {α : Type _} (texts : List α) (batch_size : Nat) : List (List α) :=
  (pyRange 0 texts.length batch_size).map (fun i => (texts.drop i).take batch_size)

/-- `await asyncio.gather(*[process_text(text) for text in batch])`
(lines 91-93) without `return_exceptions`: the ordered list of results when
every task succeeds, otherwise the first (in task order) raised exception
propagates and the sibling results are discarded. -/
def gatherResults {α β : Type _} (f : α → Except PyErr β) : List α → Except PyErr (List β)
| [] => .ok []
| x :: xs =>
  match f x with
  | .error e => .error e
  | .ok y =>
    match gatherResults f xs with
    | .error e => .error e
    | .ok ys => .ok (y :: ys)

/-- The sequential branch (lines 96-99): `for text in batch: ...append(...)`;
the first raised exception propagates, discarding the partial list. -/
def sequentialResults {α β : Type _} (f : α → Except PyErr β) (acc : List β) :
    List α → Except PyErr (List β)
| [] => .ok acc
| x :: xs =>
  match f x with
  | .error e => .error e
  | .ok y => sequentialResults f (acc ++ [y]) xs

/-- The checkpoint directory contents: one record per `batch_idx`, i.e. per
file `checkpoint_{batch_idx}.pkl`.  `_save_checkpoint` (lines 163-173)
pickles into that file, overwriting any record with the same index. -/
def save_checkpoint {β : Type _} (store : List (Nat × List β)) (batch_idx : Nat)
    (results : List β) : List (Nat × List β) :=
  (batch_idx, results) :: store.filter (fun p => p.1 ≠ batch_idx)

/-- `_load_checkpoint` (lines 175-186): return the pickled record for the
index when its file exists, else `None` (no exception). -/
def load_checkpoint {β : Type _} (store : List (Nat × List β)) (batch_idx : Nat) :
    Option (List β) :=
  (store.find? (fun p => p.1 = batch_idx)).map Prod.snd

/-- The `for batch_idx, batch in enumerate(batches)` loop of `process_batch`
(lines 84-105): process a batch (in parallel via `gather` or sequentially),
extend the cumulative `results`, and — when a checkpoint directory is
configured — save a checkpoint of the cumulative `results` keyed by
`batch_idx`.  A raised exception aborts the loop, leaving the checkpoints
written so far. -/
def runBatches {α β : Type _} (f : α → Except PyErr β) (parallel ckpt : Bool) :
    List (List α) → List β → Nat → List (Nat × List β) →
    Except PyErr (List β) × List (Nat × List β)
| [], results, _, store => (.ok results, store)
| batch :: rest, results, batch_idx, store =>
  match (if parallel then gatherResults f batch else sequentialResults f [] batch) with
  | .error e => (.error e, store)
  | .ok batch_results =>
    let results := results ++ batch_results
    let store := if ckpt then save_checkpoint store batch_idx results else store
    runBatches f parallel ckpt rest results (batch_idx + 1) store

/-- `EnhancedPipeline.process_batch` (lines 61-107), with the per-item
`process_text` coroutine abstracted as `f` and the checkpoint directory as a
present/absent flag.  Returns the outcome and the final checkpoint store. -/
def process_batch {α β : Type _} (f : α → Except PyErr β) (texts : List α)
    (batch_size : Nat) (parallel : Bool) (ckpt : Bool) :
    Except PyErr (List β) × List (Nat × List β) :=
  runBatches f parallel ckpt (batchesOf texts batch_size) [] 0 []

/-! ### The dependency relation of a registry -/

/-- `EdgeF deps a b` holds when stage `a` declares `b` as a prerequisite. -/
def EdgeF (deps : String → List String) (a b : String) : Prop := b ∈ deps a

/-- A dependency function is acyclic when no stage reaches itself through a
nonempty chain of declared prerequisites. -/
def AcyclicF (deps : String → List String) : Prop :=
  ∀ s, ¬ Relation.TransGen (EdgeF deps) s s

/-- An order list respects the dependency function when every declared
prerequisite of an element appears strictly before it. -/
def depsBefore (deps : String → List String) (order : List String) : Prop :=
  ∀ l₁ s l₂, order = l₁ ++ s :: l₂ → ∀ d ∈ deps s, d ∈ l₁

/-- Any edge-decreasing rank witnesses acyclicity. -/
theorem acyclicF_of_rank (deps : String → List String) (rank : String → Nat)
    (h : ∀ a b, EdgeF deps a b → rank b < rank a) : AcyclicF deps := by
  intro s hs
  have key : ∀ a b, Relation.TransGen (EdgeF deps) a b → rank b < rank a := by
    intro a b hab
    induction hab with
    | single he => exact h _ _ he
    | tail _ he ih => exact lt_trans (h _ _ he) ih
  exact absurd (key s s hs) (lt_irrefl _)

/-! ### Invariants of the depth-first traversal -/

/-- The number of registered stage names not yet in the visited set. -/
def unvisited (keys v : List String) : Nat := (keys.toFinset \ v.toFinset).card

theorem unvisited_cons (keys v : List String) (k : String) (hk : k ∈ keys) (hv : k ∉ v) :
    unvisited keys (k :: v) + 1 = unvisited keys v := by
  have hins : insert k (keys.toFinset \ (k :: v).toFinset) = keys.toFinset \ v.toFinset := by
    ext x
    simp only [Finset.mem_insert, Finset.mem_sdiff, List.mem_toFinset, List.mem_cons]
    constructor
    · rintro (rfl | ⟨hx, hnx⟩)
      · exact ⟨hk, hv⟩
      · exact ⟨hx, fun hxv => hnx (Or.inr hxv)⟩
    · rintro ⟨hx, hnx⟩
      by_cases hxk : x = k
      · exact Or.inl hxk
      · refine Or.inr ⟨hx, fun h => ?_⟩
        rcases h with h | h
        · exact hxk h
        · exact hnx h
  have hnm : k ∉ keys.toFinset \ (k :: v).toFinset := by
    simp [Finset.mem_sdiff]
  calc unvisited keys (k :: v) + 1
      = (insert k (keys.toFinset \ (k :: v).toFinset)).card :=
        (Finset.card_insert_of_not_mem hnm).symm
    _ = unvisited keys v := by rw [hins]; rfl

theorem unvisited_mono (keys v v' : List String) (h : ∀ x ∈ v, x ∈ v') :
    unvisited keys v' ≤ unvisited keys v := by
  apply Finset.card_le_card
  intro x hx
  simp only [Finset.mem_sdiff, List.mem_toFinset] at hx ⊢
  exact ⟨hx.1, fun hxv => hx.2 (h x hxv)⟩

theorem unvisited_nil_le (keys : List String) : unvisited keys [] ≤ keys.length := by
  unfold unvisited
  calc (keys.toFinset \ ([] : List String).toFinset).card
      ≤ keys.toFinset.card := Finset.card_le_card Finset.sdiff_subset
    _ ≤ keys.length := List.toFinset_card_le keys

/-- How one `ok` traversal step changes the visit state: the visited list
grew by a block `gv` of fresh registered names, each of whose declared
prerequisites passed the registration check, and the order list grew by the
same names. -/
def Grew (keys : List String) (deps : String → List String) (st st' : VisitState) : Prop :=
  ∃ gv go, st'.1 = gv ++ st.1 ∧ st'.2 = st.2 ++ go ∧ gv.Perm go ∧ gv.Nodup ∧
    ∀ x ∈ gv, x ∈ keys ∧ x ∉ st.1 ∧ ∀ d ∈ deps x, d ∈ keys

theorem Grew.refl (keys : List String) (deps : String → List String) (st : VisitState) :
    Grew keys deps st st :=
  ⟨[], [], by simp, by simp, List.Perm.refl _, List.nodup_nil, by simp⟩

theorem Grew.trans {keys : List String} {deps : String → List String}
    {st st₁ st₂ : VisitState} (h₁ : Grew keys deps st st₁) (h₂ : Grew keys deps st₁ st₂) :
    Grew keys deps st st₂ := by
  obtain ⟨gv₁, go₁, hv₁, ho₁, hp₁, hn₁, hm₁⟩ := h₁
  obtain ⟨gv₂, go₂, hv₂, ho₂, hp₂, hn₂, hm₂⟩ := h₂
  refine ⟨gv₂ ++ gv₁, go₁ ++ go₂, ?_, ?_, ?_, ?_, ?_⟩
  · rw [hv₂, hv₁, List.append_assoc]
  · rw [ho₂, ho₁, List.append_assoc]
  · exact (hp₂.append hp₁).trans List.perm_append_comm
  · refine hn₂.append hn₁ ?_
    intro x hx₂ hx₁
    have := (hm₂ x hx₂).2.1
    rw [hv₁] at this
    exact this (List.mem_append.mpr (Or.inl hx₁))
  · intro x hx
    rcases List.mem_append.mp hx with hx₂ | hx₁
    · obtain ⟨hk, hnv, hd⟩ := hm₂ x hx₂
      rw [hv₁] at hnv
      exact ⟨hk, fun hxst => hnv (List.mem_append.mpr (Or.inr hxst)), hd⟩
    · exact hm₁ x hx₁

theorem Grew.visited_sub {keys : List String} {deps : String → List String}
    {st st' : VisitState} (h : Grew keys deps st st') : ∀ x ∈ st.1, x ∈ st'.1 := by
  obtain ⟨gv, go, hv, -, -, -, -⟩ := h
  intro x hx
  rw [hv]
  exact List.mem_append.mpr (Or.inr hx)

theorem Grew.order_extends {keys : List String} {deps : String → List String}
    {st st' : VisitState} (h : Grew keys deps st st') : ∃ t, st'.2 = st.2 ++ t := by
  obtain ⟨gv, go, -, ho, -, -, -⟩ := h
  exact ⟨go, ho⟩

/-! ### Lemmas about the dependency loop `goDeps` -/

theorem goDeps_ok_mem {keys : List String}
    {visitFn : String → VisitState → Option (Except PyErr VisitState)} :
    ∀ {ds : List String} {st st' : VisitState},
      goDeps keys visitFn ds st = some (.ok st') → ∀ d ∈ ds, d ∈ keys := by
  intro ds
  induction ds with
  | nil => intro st st' _ d hd; exact absurd hd (List.not_mem_nil d)
  | cons d rest ih =>
    intro st st' h x hx
    simp only [goDeps] at h
    split at h
    · rename_i hdk
      rcases List.mem_cons.mp hx with rfl | hxr
      · exact hdk
      · cases hv : visitFn d st with
        | none => rw [hv] at h; exact absurd h (by simp)
        | some r =>
          rw [hv] at h
          cases r with
          | error e => exact absurd h (by simp)
          | ok st₁ => exact ih h x hxr
    · exact absurd h (by simp)

theorem goDeps_ok_grew {keys : List String} {deps : String → List String}
    {visitFn : String → VisitState → Option (Except PyErr VisitState)}
    (hvf : ∀ d st st', d ∈ keys → visitFn d st = some (.ok st') → Grew keys deps st st') :
    ∀ {ds : List String} {st st' : VisitState},
      goDeps keys visitFn ds st = some (.ok st') → Grew keys deps st st' := by
  intro ds
  induction ds with
  | nil =>
    intro st st' h
    simp only [goDeps, Option.some.injEq, Except.ok.injEq] at h
    rw [← h]
    exact Grew.refl keys deps st
  | cons d rest ih =>
    intro st st' h
    simp only [goDeps] at h
    split at h
    · rename_i hdk
      cases hv : visitFn d st with
      | none => rw [hv] at h; exact absurd h (by simp)
      | some r =>
        rw [hv] at h
        cases r with
        | error e => exact absurd h (by simp)
        | ok st₁ => exact (hvf d st st₁ hdk hv).trans (ih h)
    · exact absurd h (by simp)

theorem goDeps_ne_none {keys : List String} {deps : String → List String} {fuel : Nat}
    (hvf : ∀ d st st', d ∈ keys → visit keys deps fuel d st = some (.ok st') →
      Grew keys deps st st')
    (hnn : ∀ d st, d ∈ keys → unvisited keys st.1 < fuel →
      visit keys deps fuel d st ≠ none) :
    ∀ {ds : List String} {st : VisitState}, unvisited keys st.1 < fuel →
      goDeps keys (visit keys deps fuel) ds st ≠ none := by
  intro ds
  induction ds with
  | nil => intro st _ h; simp only [goDeps] at h; exact absurd h (by simp)
  | cons d rest ih =>
    intro st hu h
    simp only [goDeps] at h
    split at h
    · rename_i hdk
      cases hv : visit keys deps fuel d st with
      | none => exact hnn d st hdk hu hv
      | some r =>
        rw [hv] at h
        cases r with
        | error e => exact absurd h (by simp)
        | ok st₁ =>
          have hg := hvf d st st₁ hdk hv
          have hmono := unvisited_mono keys st.1 st₁.1 hg.visited_sub
          exact ih (lt_of_le_of_lt hmono hu) h
    · exact absurd h (by simp)

theorem goDeps_error_shape {keys : List String}
    {visitFn : String → VisitState → Option (Except PyErr VisitState)}
    (hvf : ∀ d st e, visitFn d st = some (.error e) →
      ∃ u, u ∉ keys ∧ e = .valueError ("Unknown dependency: " ++ u)) :
    ∀ {ds : List String} {st : VisitState} {e : PyErr},
      goDeps keys visitFn ds st = some (.error e) →
      ∃ u, u ∉ keys ∧ e = .valueError ("Unknown dependency: " ++ u) := by
  intro ds
  induction ds with
  | nil => intro st e h; simp only [goDeps] at h; exact absurd h (by simp)
  | cons d rest ih =>
    intro st e h
    simp only [goDeps] at h
    split at h
    · rename_i hdk
      cases hv : visitFn d st with
      | none => rw [hv] at h; exact absurd h (by simp)
      | some r =>
        rw [hv] at h
        cases r with
        | error e' =>
          simp only [Option.some.injEq, Except.error.injEq] at h
          exact h ▸ hvf d st e' hv
        | ok st₁ => exact ih h
    · rename_i hdk
      simp only [Option.some.injEq, Except.error.injEq] at h
      exact ⟨d, hdk, h.symm⟩

theorem goDeps_no_error {keys : List String}
    {visitFn : String → VisitState → Option (Except PyErr VisitState)}
    (hvf : ∀ d st e, d ∈ keys → visitFn d st ≠ some (.error e)) :
    ∀ {ds : List String} {st : VisitState} {e : PyErr}, (∀ d ∈ ds, d ∈ keys) →
      goDeps keys visitFn ds st ≠ some (.error e) := by
  intro ds
  induction ds with
  | nil => intro st e _ h; simp only [goDeps] at h; exact absurd h (by simp)
  | cons d rest ih =>
    intro st e hds h
    have hdk : d ∈ keys := hds d (List.mem_cons_self d rest)
    simp only [goDeps, hdk, if_true] at h
    cases hv : visitFn d st with
    | none => rw [hv] at h; exact absurd h (by simp)
    | some r =>
      rw [hv] at h
      cases r with
      | error e' =>
        simp only [Option.some.injEq, Except.error.injEq] at h
        exact hvf d st e' hdk (h ▸ hv)
      | ok st₁ => exact ih (fun x hx => hds x (List.mem_cons_of_mem d hx)) h

/-! ### Lemmas about the recursive `visit` -/

theorem visit_ok_grew {keys : List String} {deps : String → List String} :
    ∀ (fuel : Nat) (name : String) (st st' : VisitState), name ∈ keys →
      visit keys deps fuel name st = some (.ok st') → Grew keys deps st st' := by
  intro fuel
  induction fuel with
  | zero => intro name st st' _ h; exact absurd h (by simp [visit])
  | succ fuel ih =>
    intro name st st' hk h
    simp only [visit] at h
    split at h
    · rename_i hmem
      simp only [Option.some.injEq, Except.ok.injEq] at h
      rw [← h]
      exact Grew.refl keys deps st
    · rename_i hmem
      cases hg : goDeps keys (visit keys deps fuel) (deps name) (name :: st.1, st.2) with
      | none => rw [hg] at h; exact absurd h (by simp)
      | some r =>
        rw [hg] at h
        cases r with
        | error e => exact absurd h (by simp)
        | ok st₂ =>
          simp only [Option.some.injEq, Except.ok.injEq] at h
          have hgrew : Grew keys deps (name :: st.1, st.2) st₂ :=
            goDeps_ok_grew (fun d s s' hd hv => ih d s s' hd hv) hg
          have hdeps : ∀ d ∈ deps name, d ∈ keys := goDeps_ok_mem hg
          obtain ⟨gv, go, hv1, ho1, hperm, hnd, hprops⟩ := hgrew
          rw [← h]
          refine ⟨gv ++ [name], go ++ [name], ?_, ?_, ?_, ?_, ?_⟩
          · rw [hv1]; simp
          · rw [ho1]; simp
          · exact List.Perm.append_right [name] hperm
          · refine hnd.append (List.nodup_singleton name) ?_
            intro x hx hxn
            have := (hprops x hx).2.1
            simp only [List.mem_singleton] at hxn
            exact this (hxn ▸ List.mem_cons_self name st.1)
          · intro x hx
            rcases List.mem_append.mp hx with hxg | hxn
            · obtain ⟨h1, h2, h3⟩ := hprops x hxg
              exact ⟨h1, fun hxs => h2 (List.mem_cons_of_mem name hxs), h3⟩
            · simp only [List.mem_singleton] at hxn
              subst hxn
              exact ⟨hk, hmem, hdeps⟩

theorem visit_ok_mem {keys : List String} {deps : String → List String} :
    ∀ (fuel : Nat) (name : String) (st st' : VisitState),
      visit keys deps fuel name st = some (.ok st') → name ∈ st'.1 := by
  intro fuel name st st' h
  cases fuel with
  | zero => exact absurd h (by simp [visit])
  | succ fuel =>
    simp only [visit] at h
    split at h
    · rename_i hmem
      simp only [Option.some.injEq, Except.ok.injEq] at h
      rw [← h]
      exact hmem
    · rename_i hmem
      cases hg : goDeps keys (visit keys deps fuel) (deps name) (name :: st.1, st.2) with
      | none => rw [hg] at h; exact absurd h (by simp)
      | some r =>
        rw [hg] at h
        cases r with
        | error e => exact absurd h (by simp)
        | ok st₂ =>
          simp only [Option.some.injEq, Except.ok.injEq] at h
          have hgrew : Grew keys deps (name :: st.1, st.2) st₂ :=
            goDeps_ok_grew (fun d s s' hd hv => visit_ok_grew fuel d s s' hd hv) hg
          have : name ∈ st₂.1 := hgrew.visited_sub name (List.mem_cons_self name st.1)
          rw [← h]
          exact this

theorem visit_ne_none {keys : List String} {deps : String → List String} :
    ∀ (fuel : Nat) (name : String) (st : VisitState), name ∈ keys →
      unvisited keys st.1 < fuel → visit keys deps fuel name st ≠ none := by
  intro fuel
  induction fuel with
  | zero => intro name st _ hu; exact absurd hu (Nat.not_lt_zero _)
  | succ fuel ih =>
    intro name st hk hu h
    simp only [visit] at h
    split at h
    · exact absurd h (by simp)
    · rename_i hmem
      have hu' : unvisited keys (name :: st.1) < fuel := by
        have := unvisited_cons keys st.1 name hk hmem
        omega
      cases hg : goDeps keys (visit keys deps fuel) (deps name) (name :: st.1, st.2) with
      | none =>
        exact goDeps_ne_none (fun d s s' hd hv => visit_ok_grew fuel d s s' hd hv)
          (fun d s hd hus => ih d s hd hus) hu' hg
      | some r => rw [hg] at h; cases r with
        | error e => exact absurd h (by simp)
        | ok st₂ => exact absurd h (by simp)

theorem visit_error_shape {keys : List String} {deps : String → List String} :
    ∀ (fuel : Nat) (name : String) (st : VisitState) (e : PyErr),
      visit keys deps fuel name st = some (.error e) →
      ∃ u, u ∉ keys ∧ e = .valueError ("Unknown dependency: " ++ u) := by
  intro fuel
  induction fuel with
  | zero => intro name st e h; exact absurd h (by simp [visit])
  | succ fuel ih =>
    intro name st e h
    simp only [visit] at h
    split at h
    · exact absurd h (by simp)
    · cases hg : goDeps keys (visit keys deps fuel) (deps name) (name :: st.1, st.2) with
      | none => rw [hg] at h; exact absurd h (by simp)
      | some r =>
        rw [hg] at h
        cases r with
        | error e' =>
          simp only [Option.some.injEq, Except.error.injEq] at h
          exact h ▸ goDeps_error_shape (fun d s e₀ hv => ih d s e₀ hv) hg
        | ok st₂ => exact absurd h (by simp)

theorem visit_no_error {keys : List String} {deps : String → List String}
    (hreg : ∀ s ∈ keys, ∀ d ∈ deps s, d ∈ keys) :
    ∀ (fuel : Nat) (name : String) (st : VisitState) (e : PyErr), name ∈ keys →
      visit keys deps fuel name st ≠ some (.error e) := by
  intro fuel
  induction fuel with
  | zero => intro name st e _ h; exact absurd h (by simp [visit])
  | succ fuel ih =>
    intro name st e hk h
    simp only [visit] at h
    split at h
    · exact absurd h (by simp)
    · cases hg : goDeps keys (visit keys deps fuel) (deps name) (name :: st.1, st.2) with
      | none => rw [hg] at h; exact absurd h (by simp)
      | some r =>
        rw [hg] at h
        cases r with
        | error e' =>
          simp only [Option.some.injEq, Except.error.injEq] at h
          exact goDeps_no_error (fun d s e₀ hd => ih d s e₀ hd) (hreg name hk) (h ▸ hg)
        | ok st₂ => exact absurd h (by simp)

/-! ### Lemmas about the outer loop -/

theorem topLoop_ne_none {keys : List String} {deps : String → List String} {fuel : Nat} :
    ∀ {ns : List String} {st : VisitState}, (∀ n ∈ ns, n ∈ keys) →
      unvisited keys st.1 < fuel → topLoop keys deps fuel ns st ≠ none := by
  intro ns
  induction ns with
  | nil => intro st _ _ h; simp only [topLoop] at h; exact absurd h (by simp)
  | cons n rest ih =>
    intro st hns hu h
    simp only [topLoop] at h
    have hn : n ∈ keys := hns n (List.mem_cons_self n rest)
    cases hv : visit keys deps fuel n st with
    | none => exact visit_ne_none fuel n st hn hu hv
    | some r =>
      rw [hv] at h
      cases r with
      | error e => exact absurd h (by simp)
      | ok st₁ =>
        have hg := visit_ok_grew fuel n st st₁ hn hv
        exact ih (fun x hx => hns x (List.mem_cons_of_mem n hx))
          (lt_of_le_of_lt (unvisited_mono keys st.1 st₁.1 hg.visited_sub) hu) h

theorem topLoop_ok_spec {keys : List String} {deps : String → List String} {fuel : Nat} :
    ∀ {ns : List String} {st st' : VisitState}, (∀ n ∈ ns, n ∈ keys) →
      topLoop keys deps fuel ns st = some (.ok st') →
      Grew keys deps st st' ∧ ∀ n ∈ ns, n ∈ st'.1 := by
  intro ns
  induction ns with
  | nil =>
    intro st st' _ h
    simp only [topLoop, Option.some.injEq, Except.ok.injEq] at h
    rw [← h]
    exact ⟨Grew.refl keys deps st, by simp⟩
  | cons n rest ih =>
    intro st st' hns h
    simp only [topLoop] at h
    have hn : n ∈ keys := hns n (List.mem_cons_self n rest)
    cases hv : visit keys deps fuel n st with
    | none => rw [hv] at h; exact absurd h (by simp)
    | some r =>
      rw [hv] at h
      cases r with
      | error e => exact absurd h (by simp)
      | ok st₁ =>
        have hg₁ := visit_ok_grew fuel n st st₁ hn hv
        have hm₁ := visit_ok_mem fuel n st st₁ hv
        obtain ⟨hg₂, hm₂⟩ := ih (fun x hx => hns x (List.mem_cons_of_mem n hx)) h
        refine ⟨hg₁.trans hg₂, ?_⟩
        intro x hx
        rcases List.mem_cons.mp hx with rfl | hxr
        · exact hg₂.visited_sub x hm₁
        · exact hm₂ x hxr

theorem topLoop_error_shape {keys : List String} {deps : String → List String} {fuel : Nat} :
    ∀ {ns : List String} {st : VisitState} {e : PyErr},
      topLoop keys deps fuel ns st = some (.error e) →
      ∃ u, u ∉ keys ∧ e = .valueError ("Unknown dependency: " ++ u) := by
  intro ns
  induction ns with
  | nil => intro st e h; simp only [topLoop] at h; exact absurd h (by simp)
  | cons n rest ih =>
    intro st e h
    simp only [topLoop] at h
    cases hv : visit keys deps fuel n st with
    | none => rw [hv] at h; exact absurd h (by simp)
    | some r =>
      rw [hv] at h
      cases r with
      | error e' =>
        simp only [Option.some.injEq, Except.error.injEq] at h
        exact h ▸ visit_error_shape fuel n st e' hv
      | ok st₁ => exact ih h

theorem topLoop_no_error {keys : List String} {deps : String → List String} {fuel : Nat}
    (hreg : ∀ s ∈ keys, ∀ d ∈ deps s, d ∈ keys) :
    ∀ {ns : List String} {st : VisitState} {e : PyErr}, (∀ n ∈ ns, n ∈ keys) →
      topLoop keys deps fuel ns st ≠ some (.error e) := by
  intro ns
  induction ns with
  | nil => intro st e _ h; simp only [topLoop] at h; exact absurd h (by simp)
  | cons n rest ih =>
    intro st e hns h
    simp only [topLoop] at h
    have hn : n ∈ keys := hns n (List.mem_cons_self n rest)
    cases hv : visit keys deps fuel n st with
    | none => rw [hv] at h; exact absurd h (by simp)
    | some r =>
      rw [hv] at h
      cases r with
      | error e' =>
        simp only [Option.some.injEq, Except.error.injEq] at h
        exact visit_no_error hreg fuel n st e' hn (h ▸ hv)
      | ok st₁ => exact ih (fun x hx => hns x (List.mem_cons_of_mem n hx)) h

/-! ### Global facts about `get_execution_order` -/

/-- When every declared prerequisite of a registered stage is registered,
`get_execution_order` succeeds and returns every registered stage name
exactly once (a permutation of the de-duplicated key list), whether or not
the dependency graph is cyclic. -/
theorem get_execution_order_spec {α κ : Type _} (m : StageManager α κ)
    (hreg : ∀ s ∈ dictKeys m.stages, ∀ d ∈ depsOf m s, d ∈ dictKeys m.stages) :
    ∃ ord, get_execution_order m = .ok ord ∧ ord.Perm (dictKeys m.stages).dedup := by
  have hfuel : unvisited (dictKeys m.stages) [] < (dictKeys m.stages).length + 1 :=
    Nat.lt_succ_of_le (unvisited_nil_le (dictKeys m.stages))
  cases ht : topLoop (dictKeys m.stages) (depsOf m) ((dictKeys m.stages).length + 1)
      (dictKeys m.stages) ([], []) with
  | none => exact absurd ht (topLoop_ne_none (fun n hn => hn) hfuel)
  | some r =>
    cases r with
    | error e => exact absurd ht (topLoop_no_error hreg (fun n hn => hn))
    | ok st' =>
      obtain ⟨hg, hmem⟩ := topLoop_ok_spec (fun n hn => hn) ht
      obtain ⟨gv, go, hv, ho, hperm, hnd, hprops⟩ := hg
      simp only [List.append_nil] at hv
      simp only [List.nil_append] at ho
      refine ⟨st'.2, ?_, ?_⟩
      · simp only [get_execution_order, ht]
      · rw [ho]
        refine (hperm.symm.trans ?_)
        refine (List.perm_ext_iff_of_nodup hnd (List.nodup_dedup _)).mpr ?_
        intro a
        constructor
        · intro ha
          exact List.mem_dedup.mpr (hprops a ha).1
        · intro ha
          have := hmem a (List.mem_dedup.mp ha)
          rw [hv] at this
          exact this

/-- If `get_execution_order` succeeds, every declared prerequisite of every
registered stage is itself registered (the membership check ran for each). -/
theorem get_execution_order_ok_closed {α κ : Type _} (m : StageManager α κ)
    (ord : List String) (h : get_execution_order m = .ok ord) :
    ∀ s ∈ dictKeys m.stages, ∀ d ∈ depsOf m s, d ∈ dictKeys m.stages := by
  intro s hs d hd
  cases ht : topLoop (dictKeys m.stages) (depsOf m) ((dictKeys m.stages).length + 1)
      (dictKeys m.stages) ([], []) with
  | none => simp only [get_execution_order, ht] at h; exact absurd h (by simp)
  | some r =>
    cases r with
    | error e => simp only [get_execution_order, ht] at h; exact absurd h (by simp)
    | ok st' =>
      obtain ⟨hg, hmem⟩ := topLoop_ok_spec (fun n hn => hn) ht
      obtain ⟨gv, go, hv, ho, hperm, hnd, hprops⟩ := hg
      simp only [List.append_nil] at hv
      have hsv : s ∈ gv := by
        have := hmem s hs
        rw [hv] at this
        exact this
      exact (hprops s hsv).2.2 d hd

/-- Any error from `get_execution_order` is the `ValueError` raised for an
unregistered dependency, with the message naming only that dependency. -/
theorem get_execution_order_error_shape {α κ : Type _} (m : StageManager α κ)
    (e : PyErr) (h : get_execution_order m = .error e) :
    ∃ u, u ∉ dictKeys m.stages ∧ e = .valueError ("Unknown dependency: " ++ u) := by
  have hfuel : unvisited (dictKeys m.stages) [] < (dictKeys m.stages).length + 1 :=
    Nat.lt_succ_of_le (unvisited_nil_le (dictKeys m.stages))
  cases ht : topLoop (dictKeys m.stages) (depsOf m) ((dictKeys m.stages).length + 1)
      (dictKeys m.stages) ([], []) with
  | none => exact absurd ht (topLoop_ne_none (fun n hn => hn) hfuel)
  | some r =>
    cases r with
    | error e' =>
      have : get_execution_order m = .error e' := by
        simp only [get_execution_order, ht]
      rw [h] at this
      have he : e = e' := Except.error.inj this
      exact he ▸ topLoop_error_shape ht
    | ok st' =>
      have : get_execution_order m = .ok st'.2 := by
        simp only [get_execution_order, ht]
      rw [h] at this
      exact absurd this (by simp)

/-! ### Topological soundness of the traversal on acyclic graphs -/

theorem depsBefore_nil (deps : String → List String) : depsBefore deps [] := by
  intro l₁ s l₂ h
  exact absurd h.symm (List.append_ne_nil_of_right_ne_nil l₁ (List.cons_ne_nil s l₂))

theorem depsBefore_append {deps : String → List String} {o : List String} {x : String}
    (h : depsBefore deps o) (hx : ∀ d ∈ deps x, d ∈ o) : depsBefore deps (o ++ [x]) := by
  intro l₁ s l₂ hsplit d hd
  rcases l₂.eq_nil_or_concat with rfl | ⟨l₂', b, rfl⟩
  · have hsp : l₁ ++ [s] = o ++ [x] := by
      simpa using hsplit.symm
    obtain ⟨rfl, hsx⟩ := List.append_inj' hsp rfl
    have hsx' : s = x := by simpa using hsx
    subst hsx'
    exact hx d hd
  · have hsp : (l₁ ++ s :: l₂') ++ [b] = o ++ [x] := by
      simpa using hsplit.symm
    obtain ⟨ho, -⟩ := List.append_inj' hsp rfl
    exact h l₁ s l₂' ho.symm d hd

/-- If the order list respects the dependency function, every element of the
order has its declared prerequisites also in the order. -/
theorem depsBefore_mem {deps : String → List String} {o : List String}
    (h : depsBefore deps o) : ∀ s ∈ o, ∀ d ∈ deps s, d ∈ o := by
  intro s hs d hd
  obtain ⟨l₁, l₂, rfl⟩ := List.append_of_mem hs
  have := h l₁ s l₂ rfl d hd
  exact List.mem_append.mpr (Or.inl this)

/-- Invariant statement for the ghost recursion path `p`: the visited list is
the order list plus the active path, counted as multisets. -/
def PathInv (st : VisitState) (p : List String) : Prop :=
  (st.1 : Multiset String) = (st.2 : Multiset String) + (p : Multiset String)

theorem pathInv_push (v o pp : List String) (name : String)
    (h : (v : Multiset String) = (o : Multiset String) + (pp : Multiset String)) :
    ((name :: v : List String) : Multiset String)
      = (o : Multiset String) + ((name :: pp : List String) : Multiset String) := by
  rw [Multiset.coe_add] at h ⊢
  rw [Multiset.coe_eq_coe] at h ⊢
  refine (h.cons name).trans ?_
  exact List.perm_middle.symm

theorem pathInv_pop (v o pp : List String) (name : String)
    (h : (v : Multiset String)
      = (o : Multiset String) + ((name :: pp : List String) : Multiset String)) :
    (v : Multiset String)
      = ((o ++ [name] : List String) : Multiset String) + (pp : Multiset String) := by
  rw [Multiset.coe_add] at h ⊢
  rw [Multiset.coe_eq_coe] at h ⊢
  refine h.trans ?_
  rw [List.append_assoc]
  exact List.Perm.refl _

theorem goDeps_topo {keys : List String} {deps : String → List String} {fuel : Nat}
    (hvt : ∀ name st st' p, visit keys deps fuel name st = some (.ok st') →
      (∀ x ∈ p, Relation.TransGen (EdgeF deps) x name) → PathInv st p → st.1.Nodup →
      depsBefore deps st.2 →
      PathInv st' p ∧ st'.1.Nodup ∧ depsBefore deps st'.2 ∧ name ∈ st'.2 ∧
        ∃ t, st'.2 = st.2 ++ t) :
    ∀ {ds : List String} {st st' : VisitState} {p : List String},
      goDeps keys (visit keys deps fuel) ds st = some (.ok st') →
      (∀ d ∈ ds, ∀ x ∈ p, Relation.TransGen (EdgeF deps) x d) →
      PathInv st p → st.1.Nodup → depsBefore deps st.2 →
      PathInv st' p ∧ st'.1.Nodup ∧ depsBefore deps st'.2 ∧ (∀ d ∈ ds, d ∈ st'.2) ∧
        ∃ t, st'.2 = st.2 ++ t := by
  intro ds
  induction ds with
  | nil =>
    intro st st' p h _ hinv hnd hsort
    simp only [goDeps, Option.some.injEq, Except.ok.injEq] at h
    rw [← h]
    exact ⟨hinv, hnd, hsort, by simp, ⟨[], by simp⟩⟩
  | cons d rest ih =>
    intro st st' p h hds hinv hnd hsort
    simp only [goDeps] at h
    split at h
    · rename_i hdk
      cases hv : visit keys deps fuel d st with
      | none => rw [hv] at h; exact absurd h (by simp)
      | some r =>
        rw [hv] at h
        cases r with
        | error e => exact absurd h (by simp)
        | ok st₁ =>
          obtain ⟨hinv₁, hnd₁, hsort₁, hdmem₁, t₁, hext₁⟩ :=
            hvt d st st₁ p hv (fun x hx => hds d (List.mem_cons_self d rest) x hx) hinv hnd hsort
          obtain ⟨hinv₂, hnd₂, hsort₂, hdsmem₂, t₂, hext₂⟩ :=
            ih h (fun y hy x hx => hds y (List.mem_cons_of_mem d hy) x hx) hinv₁ hnd₁ hsort₁
          refine ⟨hinv₂, hnd₂, hsort₂, ?_, ?_⟩
          · intro y hy
            rcases List.mem_cons.mp hy with rfl | hyr
            · rw [hext₂]
              exact List.mem_append.mpr (Or.inl hdmem₁)
            · exact hdsmem₂ y hyr
          · exact ⟨t₁ ++ t₂, by rw [hext₂, hext₁, List.append_assoc]⟩
    · exact absurd h (by simp)

theorem visit_topo {keys : List String} {deps : String → List String}
    (hacy : AcyclicF deps) :
    ∀ (fuel : Nat) (name : String) (st st' : VisitState) (p : List String),
      visit keys deps fuel name st = some (.ok st') →
      (∀ x ∈ p, Relation.TransGen (EdgeF deps) x name) → PathInv st p → st.1.Nodup →
      depsBefore deps st.2 →
      PathInv st' p ∧ st'.1.Nodup ∧ depsBefore deps st'.2 ∧ name ∈ st'.2 ∧
        ∃ t, st'.2 = st.2 ++ t := by
  intro fuel
  induction fuel with
  | zero => intro name st st' p h; exact absurd h (by simp [visit])
  | succ fuel ih =>
    intro name st st' p h hpath hinv hnd hsort
    simp only [visit] at h
    split at h
    · rename_i hmem
      simp only [Option.some.injEq, Except.ok.injEq] at h
      rw [← h]
      refine ⟨hinv, hnd, hsort, ?_, ⟨[], by simp⟩⟩
      have hmo : name ∈ (st.2 : Multiset String) + (p : Multiset String) := by
        rw [← hinv]
        simpa using hmem
      rcases Multiset.mem_add.mp hmo with hmo | hmo
      · simpa using hmo
      · have hnp : name ∈ p := by simpa using hmo
        exact absurd (hpath name hnp) (hacy name)
    · rename_i hmem
      cases hg : goDeps keys (visit keys deps fuel) (deps name) (name :: st.1, st.2) with
      | none => rw [hg] at h; exact absurd h (by simp)
      | some r =>
        rw [hg] at h
        cases r with
        | error e => exact absurd h (by simp)
        | ok st₂ =>
          simp only [Option.some.injEq, Except.ok.injEq] at h
          have hinv₁ : PathInv (name :: st.1, st.2) (name :: p) :=
            pathInv_push st.1 st.2 p name hinv
          have hnd₁ : (name :: st.1).Nodup := List.nodup_cons.mpr ⟨hmem, hnd⟩
          have hds₁ : ∀ d ∈ deps name, ∀ x ∈ name :: p,
              Relation.TransGen (EdgeF deps) x d := by
            intro d hd x hx
            rcases List.mem_cons.mp hx with rfl | hxp
            · exact Relation.TransGen.single hd
            · exact Relation.TransGen.tail (hpath x hxp) hd
          obtain ⟨hinv₂, hnd₂, hsort₂, hdsmem₂, t₂, hext₂⟩ :=
            goDeps_topo (fun nm s s' q => ih nm s s' q) hg hds₁ hinv₁ hnd₁ hsort
          rw [← h]
          refine ⟨?_, hnd₂, ?_, ?_, ?_⟩
          · exact pathInv_pop st₂.1 st₂.2 p name hinv₂
          · exact depsBefore_append hsort₂ hdsmem₂
          · simp
          · refine ⟨t₂ ++ [name], ?_⟩
            simp only at hext₂ ⊢
            rw [hext₂, List.append_assoc]

theorem topLoop_topo {keys : List String} {deps : String → List String} {fuel : Nat}
    (hacy : AcyclicF deps) :
    ∀ {ns : List String} {st st' : VisitState},
      topLoop keys deps fuel ns st = some (.ok st') →
      PathInv st [] → st.1.Nodup → depsBefore deps st.2 →
      PathInv st' [] ∧ st'.1.Nodup ∧ depsBefore deps st'.2 := by
  intro ns
  induction ns with
  | nil =>
    intro st st' h hinv hnd hsort
    simp only [topLoop, Option.some.injEq, Except.ok.injEq] at h
    rw [← h]
    exact ⟨hinv, hnd, hsort⟩
  | cons n rest ih =>
    intro st st' h hinv hnd hsort
    simp only [topLoop] at h
    cases hv : visit keys deps fuel n st with
    | none => rw [hv] at h; exact absurd h (by simp)
    | some r =>
      rw [hv] at h
      cases r with
      | error e => exact absurd h (by simp)
      | ok st₁ =>
        obtain ⟨hinv₁, hnd₁, hsort₁, -, -⟩ :=
          visit_topo hacy fuel n st st₁ [] hv (by simp) hinv hnd hsort
        exact ih h hinv₁ hnd₁ hsort₁

/-- On an acyclic graph with every prerequisite registered,
`get_execution_order` succeeds with an order in which every declared
prerequisite of a stage precedes that stage. -/
theorem get_execution_order_sorted {α κ : Type _} (m : StageManager α κ)
    (hacy : AcyclicF (depsOf m)) :
    ∀ ord, get_execution_order m = .ok ord → depsBefore (depsOf m) ord := by
  intro ord h
  cases ht : topLoop (dictKeys m.stages) (depsOf m) ((dictKeys m.stages).length + 1)
      (dictKeys m.stages) ([], []) with
  | none => simp only [get_execution_order, ht] at h; exact absurd h (by simp)
  | some r =>
    cases r with
    | error e => simp only [get_execution_order, ht] at h; exact absurd h (by simp)
    | ok st' =>
      have hord : ord = st'.2 := by
        have : get_execution_order m = .ok st'.2 := by
          simp only [get_execution_order, ht]
        rw [h] at this
        exact Except.ok.inj this
      obtain ⟨-, -, hsort⟩ := topLoop_topo hacy ht (by simp [PathInv]) List.nodup_nil
        (depsBefore_nil (depsOf m))
      exact hord ▸ hsort

/-! ### Lemmas about the Python-dict model -/

theorem dictGet?_dictSet_self {α : Type _} (d : List (String × α)) (k : String) (v : α) :
    dictGet? (dictSet d k v) k = some v := by
  induction d with
  | nil => simp [dictSet, dictGet?]
  | cons p rest ih =>
    by_cases h : p.1 = k
    · simp [dictSet, h, dictGet?]
    · simpa [dictSet, h, dictGet?, List.find?] using ih

theorem dictKeys_dictSet_of_mem {α : Type _} (d : List (String × α)) (k : String) (v : α)
    (h : k ∈ dictKeys d) : dictKeys (dictSet d k v) = dictKeys d := by
  induction d with
  | nil => simp [dictKeys] at h
  | cons p rest ih =>
    by_cases hk : p.1 = k
    · simp [dictSet, hk, dictKeys]
    · have hm : k ∈ dictKeys rest := by
        simp only [dictKeys, List.map_cons, List.mem_cons] at h
        rcases h with h | h
        · exact absurd h.symm hk
        · exact h
      have ih' := ih hm
      simp only [dictSet, hk, if_false, dictKeys, List.map_cons]
      simp only [dictKeys] at ih'
      rw [ih']

/-- A `PipelineStageError` annotation is never the exception it wraps. -/
theorem wrap_ne_context (msg : String) (e : PyErr) :
    PyErr.pipelineStageError msg e ≠ e := by
  intro h
  have hs := congrArg sizeOf h
  simp only [PyErr.pipelineStageError.sizeOf_spec] at hs
  omega

/-! ### Concrete fixtures used by witnesses and counterexamples -/

/-- A stage named `A` that accepts every result. -/
def stageA : PipelineStage Nat Unit :=
  { name := "A", processor := fun n => .ok n, validator := fun _ => true }

/-- A second stage also named `A`, distinguishable by its validator. -/
def stageA2 : PipelineStage Nat Unit :=
  { name := "A", processor := fun n => .ok n, validator := fun _ => false }

/-- A stage named `B` that accepts every result. -/
def stageB : PipelineStage Nat Unit :=
  { name := "B", processor := fun n => .ok n, validator := fun _ => true }

/-- A stage named `C` that accepts every result. -/
def stageC : PipelineStage Nat Unit :=
  { name := "C", processor := fun n => .ok n, validator := fun _ => true }

/-- Register `A` (no deps), then `C` (deps `A`, `B`), then `B` (deps `A`):
the end-to-end example of the specification. -/
def mgrACB : StageManager Nat Unit :=
  register_stage
    (register_stage (register_stage StageManager.init stageA none) stageC (some ["A", "B"]))
    stageB (some ["A"])

/-- A two-stage registry whose dependency graph is the cycle `A -> B -> A`,
with both prerequisites registered. -/
def mgrCyc : StageManager Nat Unit :=
  register_stage (register_stage StageManager.init stageA (some ["B"])) stageB (some ["A"])

/-- A registry where stage `A` declares the never-registered prerequisite
`missing`. -/
def mgrMiss : StageManager Nat Unit :=
  register_stage (register_stage StageManager.init stageA (some ["missing"])) stageB none

/-- The registry holding only the first stage named `A`. -/
def mgrA1 : StageManager Nat Unit := register_stage StageManager.init stageA none

/-- A stage whose validator always rejects and that has no recovery function. -/
def stageNoRec : PipelineStage Nat Unit :=
  { name := "S", processor := fun n => .ok n, validator := fun _ => false }

/-- A stage whose validator rejects odd results and that recovers by
multiplying by ten (the recovered value is again odd, so a re-validation
would reject it). -/
def stageRec : PipelineStage Nat Unit :=
  { name := "R", processor := fun n => .ok (n + 1), validator := fun n => decide (n % 2 = 0)
    recovery := some (fun n _ => .ok (n * 10 + 1)) }

/-- A stage whose processor always raises `ValueError("kaboom")`. -/
def stageFail : PipelineStage Nat Unit :=
  { name := "F", processor := fun _ => .error (.valueError ("kaboom")), validator := fun _ => true }

/-- The cycle `A -> B -> A` declared in `mgrCyc`. -/
theorem mgrCyc_cycle : Relation.TransGen (EdgeF (depsOf mgrCyc)) "A" "A" := by
  have e1 : EdgeF (depsOf mgrCyc) "A" "B" := by
    simp only [EdgeF]
    decide
  have e2 : EdgeF (depsOf mgrCyc) "B" "A" := by
    simp only [EdgeF]
    decide
  exact Relation.TransGen.tail (Relation.TransGen.single e1) e2

/-! ### Claim C1 (behaviour of `get_execution_order` on a cyclic graph) -/

/-- C1 (corrected): on a registry whose dependency graph contains a cycle
(with every referenced prerequisite registered), `get_execution_order` never
infinite-loops — but it does not fail either: no `CyclicDependencyError`
class exists, and because the traversal uses a plain visited set (no
in-progress marker), it terminates silently, returning every registered
stage exactly once. -/
theorem C1_cycle_undetected {α κ : Type _} (m : StageManager α κ)
    (hnd : (dictKeys m.stages).Nodup)
    (hreg : ∀ s ∈ dictKeys m.stages, ∀ d ∈ depsOf m s, d ∈ dictKeys m.stages)
    (_hcyc : ∃ s, Relation.TransGen (EdgeF (depsOf m)) s s) :
    ∃ ord, get_execution_order m = .ok ord ∧ ord.Perm (dictKeys m.stages) ∧
      ∀ e, get_execution_order m ≠ .error e := by
  obtain ⟨ord, hok, hperm⟩ := get_execution_order_spec m hreg
  rw [hnd.dedup] at hperm
  refine ⟨ord, hok, hperm, fun e he => ?_⟩
  rw [hok] at he
  exact absurd he (by simp)

/-- C1 witness: the cyclic registry `mgrCyc` satisfies the hypotheses, and
its order computation succeeds. -/
theorem C1_cycle_undetected_witness :
    ∃ ord, get_execution_order mgrCyc = .ok ord ∧ ord.Perm (dictKeys mgrCyc.stages) ∧
      ∀ e, get_execution_order mgrCyc ≠ .error e :=
  C1_cycle_undetected mgrCyc (by decide) (by decide) ⟨"A", mgrCyc_cycle⟩

/-- C1 counterexample: the registry `A -> B -> A` has a cycle, yet
`get_execution_order` returns `.ok ["B", "A"]` instead of failing with a
`CyclicDependencyError`. -/
theorem C1_counterexample :
    Relation.TransGen (EdgeF (depsOf mgrCyc)) "A" "A" ∧
    get_execution_order mgrCyc = .ok ["B", "A"] :=
  ⟨mgrCyc_cycle, rfl⟩

/-! ### Claim C10 (termination, each registered stage exactly once) -/

/-- C10 (confirmed): for every registry state whose referenced prerequisites
are all registered — cyclic graphs included — `get_execution_order`
terminates with a list holding each registered stage name exactly once. -/
theorem C10_terminates_each_once {α κ : Type _} (m : StageManager α κ)
    (hnd : (dictKeys m.stages).Nodup)
    (hreg : ∀ s ∈ dictKeys m.stages, ∀ d ∈ depsOf m s, d ∈ dictKeys m.stages) :
    ∃ ord, get_execution_order m = .ok ord ∧ ord.Perm (dictKeys m.stages) ∧
      ord.Nodup ∧ ∀ s, s ∈ ord ↔ s ∈ dictKeys m.stages := by
  obtain ⟨ord, hok, hperm⟩ := get_execution_order_spec m hreg
  rw [hnd.dedup] at hperm
  exact ⟨ord, hok, hperm, hperm.nodup_iff.mpr hnd, fun s => hperm.mem_iff⟩

/-- C10 witness: the cyclic two-stage registry terminates and lists both
stages exactly once. -/
theorem C10_terminates_each_once_witness :
    ∃ ord, get_execution_order mgrCyc = .ok ord ∧ ord.Perm (dictKeys mgrCyc.stages) ∧
      ord.Nodup ∧ ∀ s, s ∈ ord ↔ s ∈ dictKeys mgrCyc.stages :=
  C10_terminates_each_once mgrCyc (by decide) (by decide)

/-! ### Claim C4 (unregistered prerequisite) -/

/-- C4 (corrected): registration always succeeds (the stage simply lands in
the registry), and the failure for an unregistered prerequisite occurs at
order-computation time, before any stage function is invoked (the event
trace of `execute_stages` is empty) — but it is a plain
`ValueError(f"Unknown dependency: {dep}")` naming only the missing
dependency, not an `UnknownDependencyError` naming the stage as well. -/
theorem C4_unknown_dependency {α κ : Type _} (m : StageManager α κ) (s u : String)
    (hs : s ∈ dictKeys m.stages) (hu : u ∈ depsOf m s) (hmiss : u ∉ dictKeys m.stages) :
    (∀ (st : PipelineStage α κ) (ds : Option (List String)),
        dictGet? (register_stage m st ds).stages st.name = some st) ∧
    ∃ u', u' ∉ dictKeys m.stages ∧
      get_execution_order m = .error (.valueError ("Unknown dependency: " ++ u')) ∧
      ∀ (data : α) (ctx : Option κ),
        execute_stages m data ctx
          = (.error (.valueError ("Unknown dependency: " ++ u')), []) := by
  refine ⟨fun st ds => dictGet?_dictSet_self m.stages st.name st, ?_⟩
  cases hres : get_execution_order m with
  | ok ord =>
    have := get_execution_order_ok_closed m ord hres s hs u hu
    exact absurd this hmiss
  | error e =>
    obtain ⟨u', hu', he⟩ := get_execution_order_error_shape m e hres
    subst he
    refine ⟨u', hu', rfl, fun data ctx => ?_⟩
    simp [execute_stages, hres]

/-- C4 witness: `mgrMiss` registers stage `A` with the never-registered
prerequisite `missing`; order computation fails with the `ValueError`. -/
theorem C4_unknown_dependency_witness :
    (∀ (st : PipelineStage Nat Unit) (ds : Option (List String)),
        dictGet? (register_stage mgrMiss st ds).stages st.name = some st) ∧
    ∃ u', u' ∉ dictKeys mgrMiss.stages ∧
      get_execution_order mgrMiss = .error (.valueError ("Unknown dependency: " ++ u')) ∧
      ∀ (data : Nat) (ctx : Option Unit),
        execute_stages mgrMiss data ctx
          = (.error (.valueError ("Unknown dependency: " ++ u')), []) :=
  C4_unknown_dependency mgrMiss "A" "missing" (by decide) (by decide) (by decide)

/-- C4 counterexample: the raised error is
`ValueError("Unknown dependency: missing")`; its message does not name the
offending stage `A` (the character `A` does not even occur), and there is no
distinct `UnknownDependencyError` class. -/
theorem C4_counterexample :
    get_execution_order mgrMiss = .error (.valueError ("Unknown dependency: missing")) ∧
    Char.ofNat 65 ∉ ("Unknown dependency: missing").toList :=
  ⟨rfl, by decide⟩

/-! ### Determinism of the order computation -/

/-- Replay a whole registration sequence on a fresh manager, in order. -/
def register_all {α κ : Type _} (regs : List (PipelineStage α κ × Option (List String))) :
    StageManager α κ :=
  regs.foldl (fun m r => register_stage m r.1 r.2) StageManager.init

theorem dictKeys_dictSet_congr {α₁ α₂ : Type _} :
    ∀ (d₁ : List (String × α₁)) (d₂ : List (String × α₂)) (k : String) (v₁ : α₁) (v₂ : α₂),
      dictKeys d₁ = dictKeys d₂ →
      dictKeys (dictSet d₁ k v₁) = dictKeys (dictSet d₂ k v₂) := by
  intro d₁
  induction d₁ with
  | nil =>
    intro d₂ k v₁ v₂ h
    cases d₂ with
    | nil => rfl
    | cons p r => simp [dictKeys] at h
  | cons p₁ r₁ ih =>
    intro d₂ k v₁ v₂ h
    cases d₂ with
    | nil => simp [dictKeys] at h
    | cons p₂ r₂ =>
      simp only [dictKeys, List.map_cons, List.cons.injEq] at h
      obtain ⟨hk, hr⟩ := h
      by_cases hpk : p₁.1 = k
      · have hpk₂ : p₂.1 = k := by rw [← hk]; exact hpk
        simp only [dictSet, if_pos hpk, if_pos hpk₂, dictKeys, List.map_cons]
        rw [hr]
      · have hpk₂ : ¬ p₂.1 = k := by rw [← hk]; exact hpk
        simp only [dictSet, if_neg hpk, if_neg hpk₂, dictKeys, List.map_cons]
        have hih := ih r₂ k v₁ v₂ hr
        simp only [dictKeys] at hih
        rw [hk, hih]

theorem register_stage_congr {α₁ κ₁ α₂ κ₂ : Type _} (m₁ : StageManager α₁ κ₁)
    (m₂ : StageManager α₂ κ₂) (s₁ : PipelineStage α₁ κ₁) (s₂ : PipelineStage α₂ κ₂)
    (ds : Option (List String)) (hn : s₁.name = s₂.name)
    (hk : dictKeys m₁.stages = dictKeys m₂.stages)
    (hd : m₁.dependencies = m₂.dependencies) :
    dictKeys (register_stage m₁ s₁ ds).stages = dictKeys (register_stage m₂ s₂ ds).stages ∧
    (register_stage m₁ s₁ ds).dependencies = (register_stage m₂ s₂ ds).dependencies := by
  constructor
  · simp only [register_stage]
    rw [hn]
    exact dictKeys_dictSet_congr m₁.stages m₂.stages s₂.name s₁ s₂ hk
  · simp only [register_stage]
    cases ds with
    | none => exact hd
    | some l =>
      cases l with
      | nil => exact hd
      | cons x xs => rw [hd, hn]

theorem register_fold_congr {α₁ κ₁ α₂ κ₂ : Type _} :
    ∀ (regs₁ : List (PipelineStage α₁ κ₁ × Option (List String)))
      (regs₂ : List (PipelineStage α₂ κ₂ × Option (List String)))
      (m₁ : StageManager α₁ κ₁) (m₂ : StageManager α₂ κ₂),
      regs₁.map (fun r => (r.1.name, r.2)) = regs₂.map (fun r => (r.1.name, r.2)) →
      dictKeys m₁.stages = dictKeys m₂.stages → m₁.dependencies = m₂.dependencies →
      dictKeys (regs₁.foldl (fun m r => register_stage m r.1 r.2) m₁).stages
        = dictKeys (regs₂.foldl (fun m r => register_stage m r.1 r.2) m₂).stages ∧
      (regs₁.foldl (fun m r => register_stage m r.1 r.2) m₁).dependencies
        = (regs₂.foldl (fun m r => register_stage m r.1 r.2) m₂).dependencies := by
  intro regs₁
  induction regs₁ with
  | nil =>
    intro regs₂ m₁ m₂ h hk hd
    cases regs₂ with
    | nil => exact ⟨hk, hd⟩
    | cons r₂ rest₂ => simp at h
  | cons r₁ rest₁ ih =>
    intro regs₂ m₁ m₂ h hk hd
    cases regs₂ with
    | nil => simp at h
    | cons r₂ rest₂ =>
      simp only [List.map_cons, List.cons.injEq, Prod.mk.injEq] at h
      obtain ⟨⟨hn, hds⟩, hrest⟩ := h
      simp only [List.foldl_cons]
      rw [hds]
      obtain ⟨hk', hd'⟩ := register_stage_congr m₁ m₂ r₁.1 r₂.1 r₂.2 hn hk hd
      exact ih rest₂ (register_stage m₁ r₁.1 r₂.2) (register_stage m₂ r₂.1 r₂.2) hrest hk' hd'

/-- `get_execution_order` reads only the registry's key sequence and the
dependency map: the stage payloads (processors, validators, recovery
functions) cannot influence the order. -/
theorem get_execution_order_congr {α₁ κ₁ α₂ κ₂ : Type _} (m₁ : StageManager α₁ κ₁)
    (m₂ : StageManager α₂ κ₂) (hk : dictKeys m₁.stages = dictKeys m₂.stages)
    (hd : m₁.dependencies = m₂.dependencies) :
    get_execution_order m₁ = get_execution_order m₂ := by
  have hdep : depsOf m₁ = depsOf m₂ := by
    funext s
    simp only [depsOf, hd]
  simp only [get_execution_order, hk, hdep]

/-- An explicit rank function witnessing that `mgrACB`'s graph is acyclic. -/
theorem mgrACB_acyclic : AcyclicF (depsOf mgrACB) := by
  apply acyclicF_of_rank (depsOf mgrACB)
    (fun s => if s = "C" then 2 else if s = "B" then 1 else 0)
  intro a b hedge
  simp only [EdgeF] at hedge
  by_cases hC : a = "C"
  · subst hC
    have hd : depsOf mgrACB "C" = ["A", "B"] := rfl
    rw [hd] at hedge
    rcases List.mem_cons.mp hedge with rfl | hedge
    · decide
    · have : b = "B" := List.mem_singleton.mp hedge
      subst this
      decide
  · by_cases hB : a = "B"
    · subst hB
      have hd : depsOf mgrACB "B" = ["A"] := rfl
      rw [hd] at hedge
      have : b = "A" := List.mem_singleton.mp hedge
      subst this
      decide
    · have hdeps : mgrACB.dependencies = [("C", ["A", "B"]), ("B", ["A"])] := rfl
      have h1 : (decide (("C" : String) = a)) = false := by
        simp only [decide_eq_false_iff_not]
        intro h
        exact hC h.symm
      have h2 : (decide (("B" : String) = a)) = false := by
        simp only [decide_eq_false_iff_not]
        intro h
        exact hB h.symm
      have hnone : dictGet? mgrACB.dependencies a = none := by
        rw [hdeps]
        simp [dictGet?, List.find?, h1, h2]
      have hd : depsOf mgrACB a = [] := by
        simp [depsOf, hnone]
      rw [hd] at hedge
      exact absurd hedge (List.not_mem_nil b)

/-! ### Claim C2 (topological order, determinism, end-to-end example) -/

/-- C2 (confirmed): on an acyclic registry with every prerequisite
registered, `get_execution_order` succeeds with an order in which every
declared prerequisite precedes its dependent; the order is a pure function
of the registration sequence's names and dependency lists alone (registering
the same stages with the same dependencies in the same sequence always
yields the same order, whatever the stage payloads); and registering `A` (no
deps), `C` (deps `A`, `B`), `B` (deps `A`) in the order `A`, `C`, `B` yields
`["A", "B", "C"]`. -/
theorem C2_topological_deterministic {α κ : Type _} (m : StageManager α κ)
    (hreg : ∀ s ∈ dictKeys m.stages, ∀ d ∈ depsOf m s, d ∈ dictKeys m.stages)
    (hacy : AcyclicF (depsOf m)) :
    (∃ ord, get_execution_order m = .ok ord ∧ depsBefore (depsOf m) ord) ∧
    (∀ (α₂ κ₂ : Type) (regs₁ : List (PipelineStage α κ × Option (List String)))
        (regs₂ : List (PipelineStage α₂ κ₂ × Option (List String))),
      regs₁.map (fun r => (r.1.name, r.2)) = regs₂.map (fun r => (r.1.name, r.2)) →
      get_execution_order (register_all regs₁) = get_execution_order (register_all regs₂)) ∧
    get_execution_order mgrACB = .ok ["A", "B", "C"] := by
  refine ⟨?_, ?_, rfl⟩
  · obtain ⟨ord, hok, -⟩ := get_execution_order_spec m hreg
    exact ⟨ord, hok, get_execution_order_sorted m hacy ord hok⟩
  · intro α₂ κ₂ regs₁ regs₂ hmap
    obtain ⟨hk, hd⟩ :=
      register_fold_congr regs₁ regs₂ StageManager.init StageManager.init hmap rfl rfl
    exact get_execution_order_congr _ _ hk hd

/-- C2 witness: the example registry `mgrACB` is acyclic with all
prerequisites registered; its order is `["A", "B", "C"]` and respects the
declared dependencies. -/
theorem C2_topological_deterministic_witness :
    (∃ ord, get_execution_order mgrACB = .ok ord ∧ depsBefore (depsOf mgrACB) ord) ∧
    get_execution_order mgrACB = .ok ["A", "B", "C"] :=
  have h := C2_topological_deterministic mgrACB (by decide) mgrACB_acyclic
  ⟨h.1, h.2.2⟩

/-! ### Claim C3 (stage registration with a duplicate name) -/

/-- C3 (amended): registering a stage whose name is already registered does
not fail; `register_stage` replaces the existing stage in place, keeping the
registry's key sequence unchanged, and no `DuplicateStageError` exists or is
raised. -/
theorem C3_register_replaces {α κ : Type _} (m : StageManager α κ) (s : PipelineStage α κ)
    (d : Option (List String)) (h : s.name ∈ dictKeys m.stages) :
    dictGet? (register_stage m s d).stages s.name = some s ∧
    dictKeys (register_stage m s d).stages = dictKeys m.stages := by
  constructor
  · exact dictGet?_dictSet_self m.stages s.name s
  · exact dictKeys_dictSet_of_mem m.stages s.name s h

/-- C3 witness: re-registering the name `A` over `mgrA1` lands the new stage
in the registry and keeps the key sequence `["A"]`. -/
theorem C3_register_replaces_witness :
    dictGet? (register_stage mgrA1 stageA2 none).stages "A" = some stageA2 ∧
    dictKeys (register_stage mgrA1 stageA2 none).stages = dictKeys mgrA1.stages :=
  C3_register_replaces mgrA1 stageA2 none (by decide)

/-- C3 counterexample: after re-registering the name `A`, the stage stored
under `A` is the new one (validator rejecting `0`), not the original
(validator accepting `0`): the registry is changed and the existing stage is
replaced, and no error was raised — contradicting the claim. -/
theorem C3_counterexample :
    (dictGet? (register_stage mgrA1 stageA2 none).stages "A").map (fun st => st.validator 0)
      = some false ∧
    (dictGet? mgrA1.stages "A").map (fun st => st.validator 0) = some true := by
  exact ⟨rfl, rfl⟩

/-! ### Claim C5 (the validate / recover / fail contract of `StageExecutor.execute`) -/

/-- C5 (amended): when the validator accepts the processor's result, `execute`
returns it unchanged; when the validator rejects and a recovery function is
configured, the recovery function is invoked exactly once and its output is
returned without re-validating (the trace holds exactly one `recoverCall` and
exactly one `validateCall`); when the validator rejects and no recovery
function is configured, `execute` raises
`ValueError(f"Stage {name} validation failed")`, which the surrounding
handler immediately catches and re-raises as a `PipelineStageError` naming
the stage — there is no distinct `StageValidationError`. -/
theorem C5_execute_contract {α κ : Type _} (stage : PipelineStage α κ) (data : α)
    (ctx : Option κ) (r : α) (hp : stage.processor data = .ok r) :
    (stage.validator r = true →
      StageExecutor.execute stage data ctx = (.ok r, [.procCall data, .validateCall r])) ∧
    (stage.validator r = false →
      ∀ recoverFn y, stage.recovery = some recoverFn → recoverFn r ctx = .ok y →
        StageExecutor.execute stage data ctx
          = (.ok y, [.procCall data, .validateCall r, .recoverCall r ctx]) ∧
        (StageExecutor.execute stage data ctx).2.countP (fun ev => ev.isRecover) = 1 ∧
        (StageExecutor.execute stage data ctx).2.countP (fun ev => ev.isValidate) = 1) ∧
    (stage.validator r = false → stage.recovery = none →
      StageExecutor.execute stage data ctx
        = (.error (wrapStageError stage.name
              (.valueError ("Stage " ++ stage.name ++ " validation failed"))),
            [.procCall data, .validateCall r])) := by
  refine ⟨fun hv => ?_, fun hv recoverFn y hr hy => ?_, fun hv hr => ?_⟩
  · simp [StageExecutor.execute, hp, hv]
  · have hex : StageExecutor.execute stage data ctx
        = (.ok y, [.procCall data, .validateCall r, .recoverCall r ctx]) := by
      simp [StageExecutor.execute, hp, hv, hr, hy]
    refine ⟨hex, ?_, ?_⟩
    · rw [hex]
      simp [List.countP, List.countP.go, StageEvent.isRecover]
    · rw [hex]
      simp [List.countP, List.countP.go, StageEvent.isValidate, StageEvent.isRecover]
  · simp [StageExecutor.execute, hp, hv, hr]

/-- C5 witness: `stageRec` on input `0` produces `1`, which its validator
rejects; the recovery function runs once and its output `11` is returned
without being re-validated (its validator would reject `11` too). -/
theorem C5_execute_contract_witness :
    StageExecutor.execute stageRec 0 none
      = (.ok 11, [.procCall 0, .validateCall 1, .recoverCall 1 none]) ∧
    (StageExecutor.execute stageRec 0 none).2.countP (fun ev => ev.isRecover) = 1 ∧
    stageRec.validator 11 = false :=
  have h := (C5_execute_contract stageRec 0 none 1 rfl).2.1 rfl
    (fun n _ => .ok (n * 10 + 1)) 11 rfl rfl
  ⟨h.1, h.2.1, rfl⟩

/-- C5 counterexample: with a rejecting validator and no recovery function,
the surfaced failure is the generic `PipelineStageError` wrapper (the
validation `ValueError` is caught by the stage's own `except` handler), not a
distinct `StageValidationError` as the claim states. -/
theorem C5_counterexample :
    (StageExecutor.execute stageNoRec 0 none).1
      = .error (.pipelineStageError ("Stage S failed: Stage S validation failed")
          (.valueError ("Stage S validation failed"))) := rfl

/-! ### Claim C6 (processor failures are wrapped as `PipelineStageError`) -/

/-- C6 (confirmed): any failure raised by the stage's `process` function is
caught and re-raised as a `PipelineStageError` whose message names the stage
and renders the original exception, and which carries the original exception
(Python's implicit exception chaining); the wrapped error is never the raw
error itself, so the raw error cannot propagate un-annotated. -/
theorem C6_process_errors_wrapped {α κ : Type _} (stage : PipelineStage α κ) (data : α)
    (ctx : Option κ) (e : PyErr) (hp : stage.processor data = .error e) :
    (StageExecutor.execute stage data ctx).1
      = .error (.pipelineStageError ("Stage " ++ stage.name ++ " failed: " ++ e.str) e) ∧
    (StageExecutor.execute stage data ctx).1 ≠ .error e := by
  have hex : (StageExecutor.execute stage data ctx).1
      = .error (.pipelineStageError ("Stage " ++ stage.name ++ " failed: " ++ e.str) e) := by
    simp [StageExecutor.execute, hp, wrapStageError]
  refine ⟨hex, ?_⟩
  rw [hex]
  intro h
  exact wrap_ne_context _ e (Except.error.inj h)

/-- C6 witness: `stageFail` raises `ValueError("kaboom")`, and the caller
receives `PipelineStageError("Stage F failed: kaboom")` chaining it. -/
theorem C6_process_errors_wrapped_witness :
    (StageExecutor.execute stageFail 0 none).1
      = .error (.pipelineStageError ("Stage F failed: kaboom") (.valueError ("kaboom"))) ∧
    (StageExecutor.execute stageFail 0 none).1 ≠ .error (.valueError ("kaboom")) :=
  C6_process_errors_wrapped stageFail 0 none (.valueError ("kaboom")) rfl

/-! ### Lemmas about the batch partition -/

theorem pyRangeGo_stop_le (stop step fuel start : Nat) (h : stop ≤ start) :
    pyRangeGo stop step fuel start = [] := by
  cases fuel with
  | zero => rfl
  | succ fuel => simp only [pyRangeGo, if_neg (Nat.not_lt.mpr h)]

theorem pyRangeGo_fuel_irrel (stop step : Nat) (hstep : 0 < step) :
    ∀ (f₁ f₂ start : Nat), stop - start ≤ f₁ → stop - start ≤ f₂ →
      pyRangeGo stop step f₁ start = pyRangeGo stop step f₂ start := by
  intro f₁
  induction f₁ with
  | zero =>
    intro f₂ start h₁ _
    have hss : stop ≤ start := by omega
    rw [pyRangeGo_stop_le stop step 0 start hss, pyRangeGo_stop_le stop step f₂ start hss]
  | succ f₁ ih =>
    intro f₂ start h₁ h₂
    cases f₂ with
    | zero =>
      have hss : stop ≤ start := by omega
      rw [pyRangeGo_stop_le stop step (f₁ + 1) start hss, pyRangeGo_stop_le stop step 0 start hss]
    | succ f₂ =>
      by_cases hlt : start < stop
      · simp only [pyRangeGo, if_pos hlt]
        rw [ih f₂ (start + step) (by omega) (by omega)]
      · simp only [pyRangeGo, if_neg hlt]

theorem pyRangeGo_length (stop step : Nat) (hstep : 0 < step) :
    ∀ (fuel start : Nat), stop - start ≤ fuel →
      (pyRangeGo stop step fuel start).length = (stop - start + step - 1) / step := by
  intro fuel
  induction fuel with
  | zero =>
    intro start h
    have hz : stop - start = 0 := by omega
    rw [pyRangeGo_stop_le stop step 0 start (by omega), hz]
    simp only [List.length_nil]
    rw [Nat.div_eq_of_lt (by omega)]
  | succ fuel ih =>
    intro start h
    by_cases hlt : start < stop
    · simp only [pyRangeGo, if_pos hlt, List.length_cons]
      rw [ih (start + step) (by omega)]
      have hL : 0 < stop - start := by omega
      rcases le_or_lt step (stop - start) with hc | hc
      · have h1 : stop - (start + step) + step - 1 = stop - start - 1 := by omega
        have h2 : stop - start + step - 1 = (stop - start - 1) + step := by omega
        rw [h1, h2, Nat.add_div_right _ hstep]
      · have h1 : stop - (start + step) + step - 1 = step - 1 := by omega
        rw [h1, Nat.div_eq_of_lt (by omega)]
        have h3 : (stop - start + step - 1) / step = 1 := by
          apply Nat.div_eq_of_lt_le
          · omega
          · omega
        omega
    · rw [pyRangeGo_stop_le stop step (fuel + 1) start (by omega)]
      have hz : stop - start = 0 := by omega
      rw [hz]
      simp only [List.length_nil]
      rw [Nat.div_eq_of_lt (by omega)]

theorem pyRangeGo_shift (stop step c : Nat) (hc : c ≤ stop) :
    ∀ (fuel start : Nat),
      pyRangeGo stop step fuel (start + c)
        = (pyRangeGo (stop - c) step fuel start).map (fun i => i + c) := by
  intro fuel
  induction fuel with
  | zero => intro start; rfl
  | succ fuel ih =>
    intro start
    by_cases hlt : start < stop - c
    · have hlt' : start + c < stop := by omega
      simp only [pyRangeGo, if_pos hlt, if_pos hlt', List.map_cons]
      have harg : start + c + step = (start + step) + c := by omega
      rw [harg, ih (start + step)]
    · have hlt' : ¬ start + c < stop := by omega
      simp only [pyRangeGo, if_neg hlt, if_neg hlt', List.map_nil]

theorem batchesOf_nil {α : Type _} (B : Nat) : batchesOf ([] : List α) B = [] := by
  unfold batchesOf pyRange
  by_cases hB : B = 0
  · simp [hB]
  · simp [hB, pyRangeGo]

theorem batchesOf_eq_nil_iff {α : Type _} (xs : List α) (B : Nat) (hB : 0 < B) :
    batchesOf xs B = [] ↔ xs = [] := by
  constructor
  · intro h
    by_contra hxs
    have hL : 0 < xs.length := List.length_pos.mpr hxs
    unfold batchesOf pyRange at h
    rw [if_neg (by omega)] at h
    have : xs.length - 0 = xs.length := by omega
    rw [this] at h
    cases hLc : xs.length with
    | zero => omega
    | succ n =>
      rw [hLc] at h
      simp only [pyRangeGo, if_pos (by omega : 0 < n + 1)] at h
      exact absurd h (by simp)
  · intro h
    rw [h]
    exact batchesOf_nil B

theorem batchesOf_cons {α : Type _} (xs : List α) (B : Nat) (hB : 0 < B) (hxs : xs ≠ []) :
    batchesOf xs B = xs.take B :: batchesOf (xs.drop B) B := by
  have hL : 0 < xs.length := List.length_pos.mpr hxs
  unfold batchesOf pyRange
  rw [if_neg (by omega), if_neg (by omega)]
  have h0 : xs.length - 0 = xs.length := by omega
  rw [h0]
  have hunf : pyRangeGo xs.length B xs.length 0
      = 0 :: pyRangeGo xs.length B (xs.length - 1) B := by
    cases hLc : xs.length with
    | zero => omega
    | succ n =>
      simp only [pyRangeGo, if_pos (by omega : 0 < n + 1)]
      have : 0 + B = B := by omega
      rw [this]
      rfl
  rw [hunf]
  simp only [List.map_cons, List.drop_zero]
  refine congrArg (xs.take B :: ·) ?_
  have hdl : (xs.drop B).length = xs.length - B := List.length_drop B xs
  rcases le_or_lt B xs.length with hc | hc
  · have hshift : pyRangeGo xs.length B (xs.length - 1) B
        = (pyRangeGo (xs.length - B) B (xs.length - 1) 0).map (fun i => i + B) := by
      have := pyRangeGo_shift xs.length B B hc (xs.length - 1) 0
      simpa using this
    rw [hshift]
    have hfuel : pyRangeGo (xs.length - B) B (xs.length - 1) 0
        = pyRangeGo (xs.length - B) B (xs.length - B) 0 := by
      apply pyRangeGo_fuel_irrel (xs.length - B) B hB <;> omega
    rw [hfuel, hdl]
    have h0' : xs.length - B - 0 = xs.length - B := by omega
    rw [h0', List.map_map]
    apply List.map_congr_left
    intro i _
    simp only [Function.comp]
    rw [List.drop_drop]
    have : i + B = B + i := by omega
    rw [this]
  · rw [pyRangeGo_stop_le xs.length B (xs.length - 1) B (by omega)]
    have hdrop : xs.drop B = [] := List.drop_eq_nil_of_le (by omega)
    rw [hdrop]
    simp only [List.length_nil, List.map_nil]
    rw [pyRangeGo_stop_le 0 B 0 0 (by omega)]
    simp

theorem batchesOf_join {α : Type _} (B : Nat) (hB : 0 < B) :
    ∀ (n : Nat) (xs : List α), xs.length ≤ n → (batchesOf xs B).flatten = xs := by
  intro n
  induction n with
  | zero =>
    intro xs h
    have : xs = [] := List.eq_nil_of_length_eq_zero (by omega)
    rw [this, batchesOf_nil]
    rfl
  | succ n ih =>
    intro xs h
    by_cases hxs : xs = []
    · rw [hxs, batchesOf_nil]; rfl
    · rw [batchesOf_cons xs B hB hxs]
      simp only [List.flatten_cons]
      rw [ih (xs.drop B) (by rw [List.length_drop]; omega)]
      exact List.take_append_drop B xs

theorem nat_ceil_step (L B : Nat) (hB : 0 < B) (hL : 0 < L) :
    (L - B + B - 1) / B + 1 = (L + B - 1) / B := by
  rcases le_or_lt B L with h | h
  · have h1 : L - B + B - 1 = L - 1 := by omega
    have h2 : L + B - 1 = (L - 1) + B := by omega
    rw [h1, h2, Nat.add_div_right _ hB]
  · have h1 : L - B + B - 1 = B - 1 := by omega
    rw [h1, Nat.div_eq_of_lt (by omega)]
    have h3 : (L + B - 1) / B = 1 := by
      apply Nat.div_eq_of_lt_le
      · omega
      · omega
    omega

theorem batchesOf_count {α : Type _} (B : Nat) (hB : 0 < B) :
    ∀ (n : Nat) (xs : List α), xs.length ≤ n →
      (batchesOf xs B).length = (xs.length + B - 1) / B := by
  intro n
  induction n with
  | zero =>
    intro xs h
    have hx : xs = [] := List.eq_nil_of_length_eq_zero (by omega)
    rw [hx, batchesOf_nil]
    simp only [List.length_nil]
    rw [Nat.div_eq_of_lt (by omega)]
  | succ n ih =>
    intro xs h
    by_cases hxs : xs = []
    · rw [hxs, batchesOf_nil]
      simp only [List.length_nil]
      rw [Nat.div_eq_of_lt (by omega)]
    · have hL : 0 < xs.length := List.length_pos.mpr hxs
      rw [batchesOf_cons xs B hB hxs]
      simp only [List.length_cons]
      rw [ih (xs.drop B) (by rw [List.length_drop]; omega), List.length_drop]
      exact nat_ceil_step xs.length B hB hL

theorem batchesOf_size_le {α : Type _} (xs : List α) (B : Nat) :
    ∀ b ∈ batchesOf xs B, b.length ≤ B := by
  intro b hb
  simp only [batchesOf, List.mem_map] at hb
  obtain ⟨i, -, rfl⟩ := hb
  exact List.length_take_le B _

theorem batchesOf_dropLast_full {α : Type _} (B : Nat) (hB : 0 < B) :
    ∀ (n : Nat) (xs : List α), xs.length ≤ n →
      ∀ b ∈ (batchesOf xs B).dropLast, b.length = B := by
  intro n
  induction n with
  | zero =>
    intro xs h b hb
    have hx : xs = [] := List.eq_nil_of_length_eq_zero (by omega)
    rw [hx, batchesOf_nil] at hb
    exact absurd hb (by simp)
  | succ n ih =>
    intro xs h b hb
    by_cases hxs : xs = []
    · rw [hxs, batchesOf_nil] at hb
      exact absurd hb (by simp)
    · rw [batchesOf_cons xs B hB hxs] at hb
      cases hrest : batchesOf (xs.drop B) B with
      | nil =>
        rw [hrest] at hb
        exact absurd hb (by simp)
      | cons y ys =>
        rw [hrest] at hb
        simp only [List.dropLast_cons₂, List.mem_cons] at hb
        have hlong : B < xs.length := by
          have hne : xs.drop B ≠ [] := by
            intro hdrop
            rw [(batchesOf_eq_nil_iff (xs.drop B) B hB).mpr hdrop] at hrest
            exact absurd hrest (by simp)
          by_contra hc
          exact hne (List.drop_eq_nil_of_le (by omega))
        rcases hb with rfl | hb
        · rw [List.length_take]
          omega
        · have := ih (xs.drop B) (by rw [List.length_drop]; omega) b
          rw [hrest] at this
          exact this hb

/-! ### Lemmas about batch execution and checkpoints -/

theorem gatherResults_ok {α β : Type _} (f : α → Except PyErr β) (g : α → β) :
    ∀ (b : List α), (∀ x ∈ b, f x = .ok (g x)) → gatherResults f b = .ok (b.map g) := by
  intro b
  induction b with
  | nil => intro _; rfl
  | cons x xs ih =>
    intro h
    simp only [gatherResults, h x (List.mem_cons_self x xs),
      ih (fun y hy => h y (List.mem_cons_of_mem x hy)), List.map_cons]

theorem sequentialResults_ok {α β : Type _} (f : α → Except PyErr β) (g : α → β) :
    ∀ (b : List α) (acc : List β), (∀ x ∈ b, f x = .ok (g x)) →
      sequentialResults f acc b = .ok (acc ++ b.map g) := by
  intro b
  induction b with
  | nil => intro acc _; simp [sequentialResults]
  | cons x xs ih =>
    intro acc h
    simp only [sequentialResults, h x (List.mem_cons_self x xs)]
    rw [ih (acc ++ [g x]) (fun y hy => h y (List.mem_cons_of_mem x hy))]
    simp

theorem batchResults_ok {α β : Type _} (f : α → Except PyErr β) (g : α → β) (par : Bool)
    (b : List α) (h : ∀ x ∈ b, f x = .ok (g x)) :
    (if par then gatherResults f b else sequentialResults f [] b) = .ok (b.map g) := by
  cases par
  · simpa using sequentialResults_ok f g b [] h
  · simpa using gatherResults_ok f g b h

theorem gatherResults_error {α β : Type _} (f : α → Except PyErr β) (g : α → β) (e : PyErr) :
    ∀ (b₁ : List α) (x : α) (b₂ : List α), (∀ y ∈ b₁, f y = .ok (g y)) → f x = .error e →
      gatherResults f (b₁ ++ x :: b₂) = .error e := by
  intro b₁
  induction b₁ with
  | nil => intro x b₂ _ hx; simp only [List.nil_append, gatherResults, hx]
  | cons y ys ih =>
    intro x b₂ h hx
    have hys := ih x b₂ (fun z hz => h z (List.mem_cons_of_mem y hz)) hx
    simp only [List.cons_append, gatherResults, h y (List.mem_cons_self y ys),
      List.append_eq, hys]

theorem save_checkpoint_fresh {β : Type _} (store : List (Nat × List β)) (idx : Nat)
    (res : List β) (h : ∀ p ∈ store, p.1 < idx) :
    save_checkpoint store idx res = (idx, res) :: store := by
  unfold save_checkpoint
  refine congrArg ((idx, res) :: ·) ?_
  apply List.filter_eq_self.mpr
  intro p hp
  have := h p hp
  simp only [ne_eq, decide_eq_true_eq]
  omega

theorem load_checkpoint_cons_self {β : Type _} (store : List (Nat × List β)) (idx : Nat)
    (res : List β) : load_checkpoint ((idx, res) :: store) idx = some res := by
  simp [load_checkpoint, List.find?]

theorem load_checkpoint_cons_ne {β : Type _} (store : List (Nat × List β)) (idx k : Nat)
    (res : List β) (h : k ≠ idx) :
    load_checkpoint ((idx, res) :: store) k = load_checkpoint store k := by
  have hd : (decide (idx = k)) = false := by
    simp only [decide_eq_false_iff_not]
    omega
  simp [load_checkpoint, List.find?, hd]

theorem runBatches_cons_ok {α β : Type _} (f : α → Except PyErr β) (g : α → β)
    (par ck : Bool) (b : List α) (rest : List (List α)) (acc : List β) (idx : Nat)
    (store : List (Nat × List β)) (hb : ∀ x ∈ b, f x = .ok (g x)) :
    runBatches f par ck (b :: rest) acc idx store
      = runBatches f par ck rest (acc ++ b.map g) (idx + 1)
          (if ck then save_checkpoint store idx (acc ++ b.map g) else store) := by
  simp only [runBatches, batchResults_ok f g par b hb]

theorem runBatches_ok_result {α β : Type _} (f : α → Except PyErr β) (g : α → β)
    (par ck : Bool) :
    ∀ (bs : List (List α)) (acc : List β) (idx : Nat) (store : List (Nat × List β)),
      (∀ x ∈ bs.flatten, f x = .ok (g x)) →
      (runBatches f par ck bs acc idx store).1 = .ok (acc ++ (bs.flatten).map g) := by
  intro bs
  induction bs with
  | nil => intro acc idx store _; simp [runBatches]
  | cons b rest ih =>
    intro acc idx store h
    have hb : ∀ x ∈ b, f x = .ok (g x) := fun x hx =>
      h x (by simp only [List.flatten_cons, List.mem_append]; exact Or.inl hx)
    have hrest : ∀ x ∈ rest.flatten, f x = .ok (g x) := fun x hx =>
      h x (by simp only [List.flatten_cons, List.mem_append]; exact Or.inr hx)
    rw [runBatches_cons_ok f g par ck b rest acc idx store hb,
      ih (acc ++ b.map g) (idx + 1) _ hrest]
    simp [List.flatten_cons, List.map_append, List.append_assoc]

theorem runBatches_store_spec {α β : Type _} (f : α → Except PyErr β) (g : α → β)
    (par : Bool) :
    ∀ (bs : List (List α)) (acc : List β) (idx : Nat) (store : List (Nat × List β)),
      (∀ x ∈ bs.flatten, f x = .ok (g x)) → (∀ p ∈ store, p.1 < idx) →
      (∀ j, j < bs.length →
        load_checkpoint (runBatches f par true bs acc idx store).2 (idx + j)
          = some (acc ++ ((bs.take (j + 1)).flatten).map g)) ∧
      (∀ k, k < idx ∨ idx + bs.length ≤ k →
        load_checkpoint (runBatches f par true bs acc idx store).2 k
          = load_checkpoint store k) ∧
      (runBatches f par true bs acc idx store).2.length = store.length + bs.length := by
  intro bs
  induction bs with
  | nil =>
    intro acc idx store _ _
    refine ⟨fun j hj => absurd hj (by simp), fun k _ => rfl, by simp [runBatches]⟩
  | cons b rest ih =>
    intro acc idx store hok hst
    have hb : ∀ x ∈ b, f x = .ok (g x) := fun x hx =>
      hok x (by simp only [List.flatten_cons, List.mem_append]; exact Or.inl hx)
    have hrest : ∀ x ∈ rest.flatten, f x = .ok (g x) := fun x hx =>
      hok x (by simp only [List.flatten_cons, List.mem_append]; exact Or.inr hx)
    rw [runBatches_cons_ok f g par true b rest acc idx store hb, if_pos rfl,
      save_checkpoint_fresh store idx (acc ++ b.map g) hst]
    have hst₁ : ∀ p ∈ (idx, acc ++ b.map g) :: store, p.1 < idx + 1 := by
      intro p hp
      rcases List.mem_cons.mp hp with rfl | hp
      · simp
      · have := hst p hp
        omega
    obtain ⟨ha, hload, hlen⟩ :=
      ih (acc ++ b.map g) (idx + 1) ((idx, acc ++ b.map g) :: store) hrest hst₁
    refine ⟨?_, ?_, ?_⟩
    · intro j hj
      cases j with
      | zero =>
        have hl := hload idx (Or.inl (by omega))
        rw [load_checkpoint_cons_self] at hl
        simpa [List.take_succ_cons, List.flatten_cons] using hl
      | succ j =>
        have harith : idx + (j + 1) = (idx + 1) + j := by omega
        rw [harith, ha j (by simpa using hj)]
        refine congrArg some ?_
        simp [List.take_succ_cons, List.flatten_cons, List.map_append, List.append_assoc]
    · intro k hk
      rcases hk with hk | hk
      · rw [hload k (Or.inl (by omega)), load_checkpoint_cons_ne _ _ _ _ (by omega)]
      · have hk' : idx + 1 + rest.length ≤ k := by
          simp only [List.length_cons] at hk
          omega
        rw [hload k (Or.inr hk'), load_checkpoint_cons_ne _ _ _ _ (by omega)]
    · rw [hlen]
      simp only [List.length_cons]
      omega

theorem runBatches_append_ok {α β : Type _} (f : α → Except PyErr β) (g : α → β)
    (par ck : Bool) :
    ∀ (bs₁ bs₂ : List (List α)) (acc : List β) (idx : Nat) (store : List (Nat × List β)),
      (∀ x ∈ bs₁.flatten, f x = .ok (g x)) →
      runBatches f par ck (bs₁ ++ bs₂) acc idx store
        = runBatches f par ck bs₂ (acc ++ (bs₁.flatten).map g) (idx + bs₁.length)
            ((runBatches f par ck bs₁ acc idx store).2) := by
  intro bs₁
  induction bs₁ with
  | nil => intro bs₂ acc idx store _; simp [runBatches]
  | cons b rest ih =>
    intro bs₂ acc idx store h
    have hb : ∀ x ∈ b, f x = .ok (g x) := fun x hx =>
      h x (by simp only [List.flatten_cons, List.mem_append]; exact Or.inl hx)
    have hrest : ∀ x ∈ rest.flatten, f x = .ok (g x) := fun x hx =>
      h x (by simp only [List.flatten_cons, List.mem_append]; exact Or.inr hx)
    rw [List.cons_append, runBatches_cons_ok f g par ck b (rest ++ bs₂) acc idx store hb,
      runBatches_cons_ok f g par ck b rest acc idx store hb,
      ih bs₂ (acc ++ b.map g) (idx + 1) _ hrest]
    have e1 : (acc ++ b.map g) ++ (rest.flatten).map g = acc ++ ((b :: rest).flatten).map g := by
      simp [List.flatten_cons, List.map_append, List.append_assoc]
    have e2 : idx + 1 + rest.length = idx + (b :: rest).length := by
      simp only [List.length_cons]
      omega
    rw [e1, e2]

theorem runBatches_error_first {α β : Type _} (f : α → Except PyErr β) (ck : Bool)
    (b : List α) (rest : List (List α)) (acc : List β) (idx : Nat)
    (store : List (Nat × List β)) (e : PyErr) (hb : gatherResults f b = .error e) :
    runBatches f true ck (b :: rest) acc idx store = (.error e, store) := by
  simp only [runBatches, if_true]
  rw [hb]

/-- An item function failing exactly on input `0`: used by the C9 fixtures. -/
def fBoom : Nat → Except PyErr Nat :=
  fun n => if n = 0 then .error (.valueError ("boom")) else .ok n

/-! ### Claim C7 (batch partitioning and order preservation) -/

/-- C7 (confirmed): for inputs of length `L` and `batch_size` `B > 0`,
`process_batch` slices the inputs into `ceil(L / B)` consecutive batches of
at most `B` items each, with only the last batch possibly shorter, and the
concatenated results are in input order; 7 inputs with `B = 3` give batches
of sizes `[3, 3, 1]` and, with checkpointing enabled, exactly 3 checkpoint
records. -/
theorem C7_batch_partition {α β : Type _} (f : α → Except PyErr β) (g : α → β)
    (texts : List α) (B : Nat) (par : Bool) (hB : 0 < B)
    (hf : ∀ x ∈ texts, f x = .ok (g x)) :
    (batchesOf texts B).length = (texts.length + B - 1) / B ∧
    (∀ b ∈ batchesOf texts B, b.length ≤ B) ∧
    (∀ b ∈ (batchesOf texts B).dropLast, b.length = B) ∧
    (batchesOf texts B).flatten = texts ∧
    (∀ ck, (process_batch f texts B par ck).1 = .ok (texts.map g)) ∧
    (texts.length = 7 → B = 3 →
      (batchesOf texts B).map List.length = [3, 3, 1] ∧
      (process_batch f texts B par true).2.length = 3) := by
  have hjoin : (batchesOf texts B).flatten = texts :=
    batchesOf_join B hB texts.length texts (le_refl _)
  have hfj : ∀ x ∈ (batchesOf texts B).flatten, f x = .ok (g x) := by
    rw [hjoin]
    exact hf
  refine ⟨batchesOf_count B hB texts.length texts (le_refl _), batchesOf_size_le texts B,
    batchesOf_dropLast_full B hB texts.length texts (le_refl _), hjoin, ?_, ?_⟩
  · intro ck
    have := runBatches_ok_result f g par ck (batchesOf texts B) [] 0 [] hfj
    rw [hjoin] at this
    simpa [process_batch] using this
  · intro h7 hB3
    subst hB3
    constructor
    · unfold batchesOf
      rw [h7]
      have hrange : pyRange 0 7 3 = [0, 3, 6] := rfl
      rw [hrange]
      simp only [List.map_cons, List.map_nil, List.length_take, List.length_drop, h7]
      norm_num
    · obtain ⟨-, -, hlen⟩ :=
        runBatches_store_spec f g par (batchesOf texts 3) [] 0 [] hfj (by simp)
      have hcount : (batchesOf texts 3).length = 3 := by
        rw [batchesOf_count 3 hB texts.length texts (le_refl _), h7]
      simp only [process_batch]
      rw [hlen, hcount]
      rfl

/-- C7 witness: seven concrete inputs with batch size 3. -/
theorem C7_batch_partition_witness :
    (batchesOf [1, 2, 3, 4, 5, 6, 7] 3).map List.length = [3, 3, 1] ∧
    (process_batch (fun n : Nat => Except.ok n) [1, 2, 3, 4, 5, 6, 7] 3 true true).2.length = 3 ∧
    (process_batch (fun n : Nat => Except.ok n) [1, 2, 3, 4, 5, 6, 7] 3 true true).1
      = .ok ([1, 2, 3, 4, 5, 6, 7].map id) :=
  have h := C7_batch_partition (fun n : Nat => Except.ok n) id [1, 2, 3, 4, 5, 6, 7] 3 true
    (by decide) (fun x _ => rfl)
  ⟨(h.2.2.2.2.2 rfl rfl).1, (h.2.2.2.2.2 rfl rfl).2, h.2.2.2.2.1 true⟩

/-! ### Claim C8 (checkpoint contents and absent reads) -/

/-- C8 (corrected): `_save_checkpoint` is called with the *cumulative*
results list, so after a run with checkpointing, `load(i)` returns the
concatenation of the results of batches `0..i` — not just batch `i`'s
results; `load` on an index never written returns `none` (absent), not an
error. -/
theorem C8_checkpoints_cumulative {α β : Type _} (f : α → Except PyErr β) (g : α → β)
    (texts : List α) (B : Nat) (par : Bool)
    (hf : ∀ x ∈ texts, f x = .ok (g x))
    (hjoin : (batchesOf texts B).flatten = texts) :
    (∀ j, j < (batchesOf texts B).length →
      load_checkpoint (process_batch f texts B par true).2 j
        = some ((((batchesOf texts B).take (j + 1)).flatten).map g)) ∧
    (∀ k, (batchesOf texts B).length ≤ k →
      load_checkpoint (process_batch f texts B par true).2 k = none) := by
  have hfj : ∀ x ∈ (batchesOf texts B).flatten, f x = .ok (g x) := by
    rw [hjoin]
    exact hf
  obtain ⟨ha, hload, -⟩ :=
    runBatches_store_spec f g par (batchesOf texts B) [] 0 [] hfj (by simp)
  constructor
  · intro j hj
    have := ha j hj
    simpa [process_batch] using this
  · intro k hk
    have := hload k (Or.inr (by omega))
    simpa [process_batch, load_checkpoint] using this

/-- C8 witness: instantiating the amended statement on `[10, 20, 30]` with
batch size 2: the record for batch index 1 holds the cumulative results, and
index 5 was never written. -/
theorem C8_checkpoints_cumulative_witness :
    load_checkpoint
        (process_batch (fun n : Nat => Except.ok n) [10, 20, 30] 2 true true).2 1
      = some ((((batchesOf [10, 20, 30] 2).take 2).flatten).map id) ∧
    load_checkpoint
        (process_batch (fun n : Nat => Except.ok n) [10, 20, 30] 2 true true).2 5
      = none :=
  have h := C8_checkpoints_cumulative (fun n : Nat => Except.ok n) id [10, 20, 30] 2 true
    (fun x _ => rfl) (by decide)
  ⟨h.1 1 (by decide), h.2 5 (by decide)⟩

/-- C8 counterexample: with inputs `[10, 20, 30]` and batch size 2, batch 1
consists of `[30]` alone, yet `load(1)` returns `[10, 20, 30]` — the results
of batches 0 and 1 together, not "exactly the results computed for batch 1". -/
theorem C8_counterexample :
    load_checkpoint
        (process_batch (fun n : Nat => Except.ok n) [10, 20, 30] 2 true true).2 1
      = some [10, 20, 30] ∧
    batchesOf [10, 20, 30] 2 = [[10, 20], [30]] ∧
    some [10, 20, 30] ≠ some ([30] : List Nat) :=
  ⟨rfl, rfl, by decide⟩

/-! ### Claim C9 (per-item failure isolation in a parallel batch) -/

/-- C9 (corrected): `asyncio.gather` is used without `return_exceptions`, so
one item's failure fails the whole `process_batch` call: the first failing
item's exception is re-raised as-is (no aggregate `BatchError` exists), the
sibling items' results in that batch are discarded, and neither the failing
batch nor any later batch is checkpointed. -/
theorem C9_item_failure_aborts {α β : Type _} (f : α → Except PyErr β) (g : α → β)
    (texts : List α) (B : Nat) (bs₁ : List (List α)) (b₁ : List α) (x : α) (b₂ : List α)
    (bs₂ : List (List α)) (e : PyErr)
    (hsplit : batchesOf texts B = bs₁ ++ (b₁ ++ x :: b₂) :: bs₂)
    (hok₁ : ∀ y ∈ bs₁.flatten, f y = .ok (g y))
    (hokb : ∀ y ∈ b₁, f y = .ok (g y))
    (hx : f x = .error e) :
    (process_batch f texts B true true).1 = .error e ∧
    (process_batch f texts B true true).2.length = bs₁.length ∧
    (∀ k, bs₁.length ≤ k → load_checkpoint (process_batch f texts B true true).2 k = none) := by
  have hgerr : gatherResults f (b₁ ++ x :: b₂) = .error e :=
    gatherResults_error f g e b₁ x b₂ hokb hx
  have hrun : process_batch f texts B true true
      = (.error e, (runBatches f true true bs₁ [] 0 []).2) := by
    unfold process_batch
    rw [hsplit, runBatches_append_ok f g true true bs₁ ((b₁ ++ x :: b₂) :: bs₂) [] 0 [] hok₁,
      runBatches_error_first f true (b₁ ++ x :: b₂) bs₂ _ _ _ e hgerr]
  obtain ⟨-, hload, hlen⟩ := runBatches_store_spec f g true bs₁ [] 0 [] hok₁ (by simp)
  rw [hrun]
  refine ⟨rfl, by simpa using hlen, ?_⟩
  intro k hk
  have := hload k (Or.inr (by omega))
  simpa [load_checkpoint] using this

/-- C9 witness: the batch `[1, 0]` run in parallel, where item `0` fails:
the whole call raises that item's `ValueError("boom")` and writes no
checkpoint. -/
theorem C9_item_failure_aborts_witness :
    (process_batch fBoom [1, 0] 2 true true).1 = .error (.valueError ("boom")) ∧
    (process_batch fBoom [1, 0] 2 true true).2.length = 0 :=
  have h := C9_item_failure_aborts fBoom id [1, 0] 2 [] [1] 0 [] [] (.valueError ("boom"))
    (by decide)
    (fun y hy => absurd hy (by simp))
    (fun y hy => by
      have : y = 1 := by simpa using hy
      rw [this]
      rfl)
    rfl
  ⟨h.1, by simpa using h.2.1⟩

/-- C9 counterexample: in the parallel batch `[1, 0]`, item `1` succeeds and
item `0` fails, yet the call's outcome is the bare single-item error with no
result for item `1` and no per-item outcome record (and no checkpoint): one
item's failure does fail the others, contradicting the claim. -/
theorem C9_counterexample :
    process_batch fBoom [1, 0] 2 true true = (.error (.valueError ("boom")), []) ∧
    fBoom 1 = .ok 1 :=
  ⟨rfl, rfl⟩

end Anar
